import Mathlib

/-!
Verification development for the planar-face-discovery repository.

The TypeScript sources (src/planar-face-tree.ts, src/geometry.ts,
src/area-tree.ts) are shallowly embedded below.  JavaScript numbers are
modelled by `ℚ` (the algorithm only adds, subtracts, multiplies, halves and
compares coordinates), vertex records by entries of an explicit store list
indexed by natural-number handles (object identity = handle equality), the
insertion-ordered JS `Set`/`Map` structures by duplicate-free lists in
insertion order, and runtime exceptions / potential non-termination by an
`Except` result with an explicit fuel parameter.
-/

namespace Planar

/-- A 2-d position, `[x, y]` in the source. -/
abbrev Pt : Type := ℚ × ℚ

/-!
JavaScript arithmetic on coordinates is modelled by exact rational
arithmetic.  The toolchain's `Rat.add`, `Rat.sub`, `Rat.mul` and `Rat.inv`
are `@[irreducible]`, which would block the definitional evaluation of
concrete runs; the operations below compute the same rationals through
`mkRat` (which does reduce) and are proved equal to the standard ones in
the lemma section (`qAdd_eq` etc.).
-/

/-- Kernel-reducible rational addition. -/
def qAdd (a b : ℚ) : ℚ := mkRat (a.num * b.den + b.num * a.den) (a.den * b.den)

/-- Kernel-reducible rational subtraction. -/
def qSub (a b : ℚ) : ℚ := mkRat (a.num * b.den - b.num * a.den) (a.den * b.den)

/-- Kernel-reducible rational multiplication. -/
def qMul (a b : ℚ) : ℚ := mkRat (a.num * b.num) (a.den * b.den)

/-- Kernel-reducible rational division (division by zero yields 0; the
source only ever divides by 2). -/
def qDiv (a b : ℚ) : ℚ :=
  if 0 ≤ b.num then mkRat (a.num * b.den) (a.den * b.num.natAbs)
  else mkRat (-(a.num * b.den)) (a.den * b.num.natAbs)

/-- Kernel-reducible sum of a list of rationals. -/
def qListSum : List ℚ → ℚ
  | [] => 0
  | x :: xs => qAdd x (qListSum xs)

/-- `WindingOrder` from src/geometry.ts. -/
inductive WindingOrder where
  | CW
  | CCW
  | COLINEAR
deriving DecidableEq, Repr

/-- The contribution of the directed segment `a → b` to the winding-order sum
in `determineWindingOrder`: `(x2 - x1) * (y2 + y1)`. -/
def segTerm (a b : Pt) : ℚ := qMul (qSub b.1 a.1) (qAdd b.2 a.2)

/-- Sum of `segTerm` over adjacent pairs of the list (all the terms of the
reduce in `determineWindingOrder` except the final wrap-around term). -/
def adjTermSum : List Pt → ℚ
  | [] => 0
  | [_] => 0
  | a :: b :: t => qAdd (segTerm a b) (adjTermSum (b :: t))

/-- First point of the list (`points[0]`), `(0,0)` for the empty list. -/
def headPt (l : List Pt) : Pt := l.headD (0, 0)

/-- Last point of the list, `(0,0)` for the empty list. -/
def lastPt (l : List Pt) : Pt := l.getLastD (0, 0)

/-- The reduce in `determineWindingOrder`: index `ix` contributes
`segTerm points[ix] points[ix+1]`, the final index pairs with `points[0]`.
That is: the adjacent-pair terms plus one wrap-around term.  (For a
singleton list the single term is `segTerm p p = 0`, as in the source.) -/
def windingSum (points : List Pt) : ℚ :=
  qAdd (adjTermSum points) (segTerm (lastPt points) (headPt points))

/-- `determineWindingOrder` from src/geometry.ts: `res === 0 → COLINEAR`,
`res > 0 → CW`, otherwise `CCW`. -/
def determineWindingOrder (points : List Pt) : WindingOrder :=
  let res := windingSum points
  if res = 0 then WindingOrder.COLINEAR
  else if res > 0 then WindingOrder.CW else WindingOrder.CCW

/-- `getPointPath`: drop the closing duplicate node and look the remaining
names up in the node table (`nodes[p]`; an out-of-range index, impossible in
the algorithm's own use, is modelled as `(0,0)`). -/
def getPointPath (nodes : List Pt) (edges : List ℕ) : List Pt :=
  edges.dropLast.map (fun p => nodes.getD p (0, 0))

/-- Helper for `getLinePath`: pair each point with its successor, the last
point pairing with the first point of the whole list. -/
def linePathGo (first : Pt) : List Pt → List (Pt × Pt)
  | [] => []
  | [a] => [(a, first)]
  | a :: b :: t => (a, b) :: linePathGo first (b :: t)

/-- `getLinePath` from src/geometry.ts: the reduce producing
`[pt, arr[ix+1] ? arr[ix+1] : arr[0]]` for every index. -/
def getLinePath : List Pt → List (Pt × Pt)
  | [] => []
  | h :: t => linePathGo h (h :: t)

/-- `areaUnderLineSegment`: `((y1 + y2) / 2) * (x2 - x1)`. -/
def areaUnderLineSegment (s : Pt × Pt) : ℚ :=
  qMul (qDiv (qAdd s.1.2 s.2.2) 2) (qSub s.2.1 s.1.1)

/-- `irregularPolygonArea`: 0 when colinear, the sum of the segment areas for
CW winding and the negated sum for CCW (the reduce subtracts each term from
the zero accumulator).  The source's `number | null` result type is never
`null` on these branches. -/
def irregularPolygonArea (lineSegments : List (Pt × Pt)) :
    WindingOrder → ℚ
  | WindingOrder.COLINEAR => 0
  | WindingOrder.CW => qListSum (lineSegments.map areaUnderLineSegment)
  | WindingOrder.CCW => -qListSum (lineSegments.map areaUnderLineSegment)

/-- `InputPolygon` from src/geometry.ts. -/
structure InputPolygon where
  edges : List ℕ
deriving DecidableEq, Repr

/-- `getPolygonArea` from src/geometry.ts.  The trailing `|| 0` of the source
maps the (unreachable) `null` to 0 and is the identity on every number the
callee actually returns. -/
def getPolygonArea (nodes : List Pt) (polygon : InputPolygon) : ℚ :=
  let pointPath := getPointPath nodes polygon.edges
  let windingOrder := determineWindingOrder pointPath
  let linePath := getLinePath pointPath
  irregularPolygonArea linePath windingOrder

/-- `getMaxX` from src/geometry.ts (the running maximum starts at `-1`). -/
def getMaxX (pos : List Pt) : ℚ :=
  pos.foldl (fun mx p => if p.1 > mx then p.1 else mx) (-1)

/-- `onSegment p q r`: `q` lies in the closed bounding box of `p` and `r`. -/
def onSegment (p q r : Pt) : Bool :=
  q.1 ≤ max p.1 r.1 && min p.1 r.1 ≤ q.1 &&
  q.2 ≤ max p.2 r.2 && min p.2 r.2 ≤ q.2

/-- `intersect` from src/geometry.ts. -/
def intersect (p1 q1 p2 q2 : Pt) : Bool :=
  let o1 := determineWindingOrder [p1, q1, p2]
  let o2 := determineWindingOrder [p1, q1, q2]
  let o3 := determineWindingOrder [p2, q2, p1]
  let o4 := determineWindingOrder [p2, q2, q1]
  if o1 ≠ o2 && o3 ≠ o4 then true
  else if o1 = WindingOrder.COLINEAR && onSegment p1 p2 q1 then true
  else if o2 = WindingOrder.COLINEAR && onSegment p1 q2 q1 then true
  else if o3 = WindingOrder.COLINEAR && onSegment p2 p1 q2 then true
  else if o4 = WindingOrder.COLINEAR && onSegment p2 q1 q2 then true
  else false

/-- One step of the ray-casting loop of `isInside` for edge
`polygon[i] → polygon[next]`; returns `some b` when the source would return
`b` from inside the loop (the colinear special case) and `none` to continue
with the given crossing count. -/
def isInsideStep (polygon : List Pt) (p extreme : Pt) (i : ℕ)
    (count : ℕ) : Option Bool × ℕ :=
  let next := (i + 1) % polygon.length
  let pi := polygon.getD i (0, 0)
  let pn := polygon.getD next (0, 0)
  if intersect pi pn p extreme then
    if determineWindingOrder [pi, p, pn] = WindingOrder.COLINEAR then
      (some (onSegment pi p pn), count)
    else (none, count + 1)
  else (none, count)

/-- The do/while of `isInside` visits `i = 0, 1, …, polygon.length - 1`
exactly once; this fold realises that iteration. -/
def isInsideLoop (polygon : List Pt) (p extreme : Pt) :
    List ℕ → ℕ → Option Bool × ℕ
  | [], count => (none, count)
  | i :: rest, count =>
    match isInsideStep polygon p extreme i count with
    | (some b, c) => (some b, c)
    | (none, c) => isInsideLoop polygon p extreme rest c

/-- `isInside` from src/geometry.ts (the unused `nodes` parameter of the
source is dropped): cast a ray from `p` to `(maxX + 10, p.y)` and count
crossings; a colinear crossing answers `onSegment` directly. -/
def isInside (p : Pt) (polygon : List Pt) : Bool :=
  let extreme : Pt := (qAdd (getMaxX polygon) 10, p.2)
  match isInsideLoop polygon p extreme (List.range polygon.length) 0 with
  | (some b, _) => b
  | (none, count) => count % 2 = 1

/-- `pointLiesOnPolygonBoundary` from src/geometry.ts. -/
def pointLiesOnPolygonBoundary (point : Pt) (polygon : List (Pt × Pt)) :
    Bool :=
  polygon.any (fun seg =>
    determineWindingOrder [seg.1, seg.2, point] = WindingOrder.COLINEAR &&
    onSegment seg.1 point seg.2)

/-- `allPointsLieOnBoundary` from src/geometry.ts. -/
def allPointsLieOnBoundary (a : List Pt) (b : List (Pt × Pt)) : Bool :=
  a.all (fun aPt => pointLiesOnPolygonBoundary aPt b)

/-! ### Validator (src/planar-face-tree.ts, `validateInputs`) -/

/-- `DiscoveryErrorCode` from src/planar-face-tree.ts. -/
inductive DiscoveryErrorCode where
  | INVALID_COORDINATE_SYSTEM
  | EDGE_ENDPOINT_OUT_OF_BOUNDS
  | VERTICES_HAVE_SAME_POSITION
  | DUPLICATE_EDGE_FOUND
  | GRAPH_EMPTY
deriving DecidableEq, Repr

/-- An input edge, a pair of (possibly negative) endpoint numbers. -/
abbrev InputEdge : Type := ℤ × ℤ

/-- The position loop of `validateInputs`: for each position, first the
duplicate-position check against the set of already-seen keys (the string
key `x->y` identifies exactly the pair, modelled by pair equality), then
the negative-coordinate check. -/
def posLoop (seen : List Pt) : List Pt → Option DiscoveryErrorCode
  | [] => none
  | p :: rest =>
    if p ∈ seen then some DiscoveryErrorCode.VERTICES_HAVE_SAME_POSITION
    else if p.1 < 0 ∨ p.2 < 0 then
      some DiscoveryErrorCode.INVALID_COORDINATE_SYSTEM
    else posLoop (seen ++ [p]) rest

/-- The edge loop of `validateInputs`: for each edge, first the
duplicate-key check (the ordered pair `a->b` is the key), the key is then
added, and only afterwards the endpoint-bounds check runs. -/
def edgeLoop (maxNodeValue : ℤ) (seen : List InputEdge) :
    List InputEdge → Option DiscoveryErrorCode
  | [] => none
  | e :: rest =>
    if e ∈ seen then some DiscoveryErrorCode.DUPLICATE_EDGE_FOUND
    else if e.1 < 0 ∨ e.1 > maxNodeValue ∨ e.2 < 0 ∨ e.2 > maxNodeValue then
      some DiscoveryErrorCode.EDGE_ENDPOINT_OUT_OF_BOUNDS
    else edgeLoop maxNodeValue (seen ++ [e]) rest

/-- `PlanarFaceTree.validateInputs`. -/
def validateInputs (positions : List Pt) (edges : List InputEdge) :
    Option DiscoveryErrorCode :=
  if positions.length = 0 ∨ edges.length = 0 then
    some DiscoveryErrorCode.GRAPH_EMPTY
  else
    match posLoop [] positions with
    | some e => some e
    | none => edgeLoop ((positions.length : ℤ) - 1) [] edges

/-- Modelled from the claim's stated precedence, for comparison with
`validateInputs`: emptiness first, then every position in index order
(same-position before negative-coordinate), then every edge in index order
with the out-of-bounds check before the duplicate-key check
(`EDGE_ENDPOINT_OUT_OF_BOUNDS > DUPLICATE_EDGE_FOUND`). -/
def edgeLoopSpec (maxNodeValue : ℤ) (seen : List InputEdge) :
    List InputEdge → Option DiscoveryErrorCode
  | [] => none
  | e :: rest =>
    if e.1 < 0 ∨ e.1 > maxNodeValue ∨ e.2 < 0 ∨ e.2 > maxNodeValue then
      some DiscoveryErrorCode.EDGE_ENDPOINT_OUT_OF_BOUNDS
    else if e ∈ seen then some DiscoveryErrorCode.DUPLICATE_EDGE_FOUND
    else edgeLoopSpec maxNodeValue (seen ++ [e]) rest

/-- The validator the claimed precedence describes (see `edgeLoopSpec`). -/
def specValidate (positions : List Pt) (edges : List InputEdge) :
    Option DiscoveryErrorCode :=
  if positions.length = 0 ∨ edges.length = 0 then
    some DiscoveryErrorCode.GRAPH_EMPTY
  else
    match posLoop [] positions with
    | some e => some e
    | none => edgeLoopSpec ((positions.length : ℤ) - 1) [] edges

/-- In-bounds check of one edge endpoint pair, as the source writes it. -/
def edgeInBounds (maxNodeValue : ℤ) (e : InputEdge) : Prop :=
  ¬(e.1 < 0 ∨ e.1 > maxNodeValue ∨ e.2 < 0 ∨ e.2 > maxNodeValue)

/-! ### Vertex store and graph state (src/planar-face-tree.ts) -/

/-- A `Vertex` record: name, position, insertion-ordered adjacency set of
handles into the store, and the DFS `visited` mark (0/1/2). -/
structure Vertex where
  name : ℕ
  position : Pt
  adjacent : List ℕ
  visited : ℕ
deriving DecidableEq, Repr

instance : Inhabited Vertex := ⟨⟨0, (0, 0), [], 0⟩⟩

/-- The `vertexStore` of a `PlanarFaceTree` instance; a vertex object is
identified with its index (handle) in this list. -/
abbrev Store : Type := List Vertex

/-- Dereference a handle (never out of range in the algorithm's own use). -/
def getV (s : Store) (h : ℕ) : Vertex := s.getD h default

/-- `v.adjacent.size`. -/
def deg (s : Store) (h : ℕ) : ℕ := (getV s h).adjacent.length

/-- Replace the record at a handle. -/
def setV (s : Store) (h : ℕ) (v : Vertex) : Store := s.set h v

/-- `a.adjacent.add(b)` — JS `Set.add`: append if absent. -/
def adjAdd (s : Store) (a b : ℕ) : Store :=
  if b ∈ (getV s a).adjacent then s
  else setV s a ⟨(getV s a).name, (getV s a).position,
    (getV s a).adjacent ++ [b], (getV s a).visited⟩

/-- `a.adjacent.delete(b)` — JS `Set.delete`: remove the entry if present. -/
def adjDel (s : Store) (a b : ℕ) : Store :=
  setV s a ⟨(getV s a).name, (getV s a).position,
    (getV s a).adjacent.erase b, (getV s a).visited⟩

/-- Set the `visited` mark of a record. -/
def setVisited (s : Store) (h : ℕ) (m : ℕ) : Store :=
  setV s h ⟨(getV s h).name, (getV s h).position, (getV s h).adjacent, m⟩

/-- Sum of all adjacency-set sizes; the termination measure of the
edge-deleting loops. -/
def totalAdj (s : Store) : ℕ := (s.map (fun v => v.adjacent.length)).sum

/-- The degree-1 edge-stripping loop shared by `removeFilaments` (with
`stop = none`) and the two trims of `extractCycle` (with `stop = vBranch`):
while the current vertex is not the stop vertex and has exactly one
neighbour, delete the edge to that neighbour in both directions and move to
it.  The two sources delete the two directions in opposite orders; the
resulting store is the same, and this definition uses the
neighbour-then-current order of `removeFilaments`.  Every iteration
strictly decreases `totalAdj`, so the fuel `totalAdj s + 1` supplied by
`stripWalkT` always suffices (`stripWalk_totalAdj_lt` below). -/
def stripWalk : ℕ → Option ℕ → Store → ℕ → Store × ℕ
  | 0, _, s, v => (s, v)
  | fuel + 1, stop, s, v =>
    if some v ≠ stop ∧ deg s v = 1 then
      stripWalk fuel stop
        (adjDel (adjDel s ((getV s v).adjacent.headD 0) v) v
          ((getV s v).adjacent.headD 0))
        ((getV s v).adjacent.headD 0)
    else (s, v)

/-- `stripWalk` with always-sufficient fuel: the loop as the source runs it. -/
def stripWalkT (stop : Option ℕ) (s : Store) (v : ℕ) : Store × ℕ :=
  stripWalk (totalAdj s + 1) stop s v

/-- `removeFilaments`: collect the degree-1 endpoints of the component, walk
and strip the filament from each of them, and (only when there was at least
one endpoint) rebuild the component keeping the vertices with non-empty
adjacency. -/
def removeFilaments (s : Store) (comp : List ℕ) : Store × List ℕ :=
  let endpoints := comp.filter (fun v => decide (deg s v = 1))
  if endpoints.length > 0 then
    let s1 := endpoints.foldl
      (fun t v => if deg t v = 1 then (stripWalkT none t v).1 else t) s
    (s1, comp.filter (fun v => decide (0 < deg s1 v)))
  else (s, comp)

/-- `getClockwiseMost` from src/planar-face-tree.ts: fold over the adjacency
set keeping the best candidate, its direction and the `vCurrConvex` flag.
Note the source's quirk: the reflex-branch replacement recomputes the flag
with strict `<` where every other update uses `≤`. -/
def getClockwiseMost (s : Store) (vPrev : Option ℕ) (vCurr : ℕ) : Option ℕ :=
  let pCurr := (getV s vCurr).position
  let dCurr : Pt := match vPrev with
    | some p => (qSub pCurr.1 (getV s p).position.1,
                 qSub pCurr.2 (getV s p).position.2)
    | none => (0, -1)
  ((getV s vCurr).adjacent.foldl
    (fun (st : Option ℕ × Pt × Bool) vAdj =>
      if some vAdj = vPrev then st
      else
        let pA := (getV s vAdj).position
        let dAdj : Pt := (qSub pA.1 pCurr.1, qSub pA.2 pCurr.2)
        match st with
        | (none, _, _) =>
          (some vAdj, dAdj,
            decide (qMul dAdj.1 dCurr.2 ≤ qMul dAdj.2 dCurr.1))
        | (some vN, dNext, conv) =>
          if conv then
            if dCurr.1 * dAdj.2 < dCurr.2 * dAdj.1 ∨
                dNext.1 * dAdj.2 < dNext.2 * dAdj.1 then
              (some vAdj, dAdj,
            decide (qMul dAdj.1 dCurr.2 ≤ qMul dAdj.2 dCurr.1))
            else (some vN, dNext, conv)
          else
            if dCurr.1 * dAdj.2 < dCurr.2 * dAdj.1 ∧
                dNext.1 * dAdj.2 < dNext.2 * dAdj.1 then
              (some vAdj, dAdj, decide (dAdj.1 * dCurr.2 < dAdj.2 * dCurr.1))
            else (some vN, dNext, conv))
    (none, ((0 : ℚ), (0 : ℚ)), false)).1

/-- `getCounterClockwiseMost`: the mirrored comparisons (`>` in place of
`<`, the convex branch conjoining and the reflex branch disjoining); every
flag update uses `≤`. -/
def getCounterClockwiseMost (s : Store) (vPrev : Option ℕ) (vCurr : ℕ) :
    Option ℕ :=
  let pCurr := (getV s vCurr).position
  let dCurr : Pt := match vPrev with
    | some p => (qSub pCurr.1 (getV s p).position.1,
                 qSub pCurr.2 (getV s p).position.2)
    | none => (0, -1)
  ((getV s vCurr).adjacent.foldl
    (fun (st : Option ℕ × Pt × Bool) vAdj =>
      if some vAdj = vPrev then st
      else
        let pA := (getV s vAdj).position
        let dAdj : Pt := (qSub pA.1 pCurr.1, qSub pA.2 pCurr.2)
        match st with
        | (none, _, _) =>
          (some vAdj, dAdj,
            decide (qMul dAdj.1 dCurr.2 ≤ qMul dAdj.2 dCurr.1))
        | (some vN, dNext, conv) =>
          if conv then
            if dCurr.1 * dAdj.2 > dCurr.2 * dAdj.1 ∧
                dNext.1 * dAdj.2 > dNext.2 * dAdj.1 then
              (some vAdj, dAdj,
            decide (qMul dAdj.1 dCurr.2 ≤ qMul dAdj.2 dCurr.1))
            else (some vN, dNext, conv)
          else
            if dCurr.1 * dAdj.2 > dCurr.2 * dAdj.1 ∨
                dNext.1 * dAdj.2 > dNext.2 * dAdj.1 then
              (some vAdj, dAdj,
            decide (qMul dAdj.1 dCurr.2 ≤ qMul dAdj.2 dCurr.1))
            else (some vN, dNext, conv))
    (none, ((0 : ℚ), (0 : ℚ)), false)).1

/-- The left-most-vertex fold at the start of `extractCycleFromComponent`
(`minVertex` starts as `component.value[0]` and the forEach revisits it;
equal `x` breaks ties towards the smaller `y`). -/
def findMinVertex (s : Store) (comp : List ℕ) : ℕ :=
  comp.foldl
    (fun minV v =>
      let m1 := if (getV s v).position.1 = (getV s minV).position.1 ∧
          (getV s v).position.2 < (getV s minV).position.2 then v else minV
      if (getV s v).position.1 < (getV s m1).position.1 then v else m1)
    (comp.headD 0)

/-- Runtime outcomes the TypeScript cannot return as values: a thrown
`TypeError` from dereferencing a `null` walk vertex (`crash`), or
non-termination truncated by the fuel (`fuelOut`). -/
inductive RunError where
  | fuelOut
  | crash
deriving DecidableEq, Repr

/-- The closed-walk loop of `extractCycleFromComponent`: while the next
vertex is not the start, append it and step with `getCounterClockwiseMost`.
A `null` next vertex is pushed and then dereferenced by the callee in the
source, i.e. the call throws: modelled as `crash`. -/
def walkLoop : ℕ → Store → ℕ → ℕ → Option ℕ → List ℕ →
    Except RunError (List ℕ)
  | 0, _, _, _, _, _ => .error RunError.fuelOut
  | fuel + 1, s, vStart, vCurr, vAdjOpt, acc =>
    match vAdjOpt with
    | none => .error RunError.crash
    | some vAdj =>
      if vAdj = vStart then .ok (acc ++ [vStart])
      else walkLoop fuel s vStart vAdj
        (getCounterClockwiseMost s (some vCurr) vAdj) (acc ++ [vAdj])

/-- Build the closed walk from the left-most vertex: first step is
`getClockwiseMost(null, vStart)`, the walk starts and ends with `vStart`. -/
def buildClosedWalk (fuel : ℕ) (s : Store) (vStart : ℕ) :
    Except RunError (List ℕ) :=
  walkLoop fuel s vStart vStart (getClockwiseMost s none vStart) [vStart]

/-- The self-intersection simplification loop of
`extractCycleFromClosedWalk`.  `dups` is the `duplicates` map (an assoc
list keyed by vertex handle, in insertion order), `dets` the `detachments`
set (insertion-ordered index list).  The source's
`splice(iMin+1, iMax-iMin)` is `take (iMin+1) ++ drop (iMin+1+(iMax-iMin))`
(a non-positive delete count deletes nothing), and its `i = iMin` before
the `++i` of the for loop resumes at `iMin + 1`.  The `|| null` on the map
lookup never fires because every recorded index is ≥ 1.  Every iteration
lexicographically decreases `(walk.length, walk.length - i)`, so the fuel
`(walk.length + 1)²` supplied by `simplifyWalkT` always suffices. -/
def simplifyWalk : ℕ → List ℕ → List (ℕ × ℕ) → List ℕ → ℕ →
    List ℕ × List ℕ
  | 0, walk, _, dets, _ => (walk, dets)
  | fuel + 1, walk, dups, dets, i =>
    if i < walk.length - 1 then
      match List.lookup (walk.getD i 0) dups with
      | none => simplifyWalk fuel walk (dups ++ [(walk.getD i 0, i)]) dets (i + 1)
      | some iMin =>
        let iMax := i
        let dets1 := if iMin ∈ dets then dets else dets ++ [iMin]
        let js := (List.range (iMax - (iMin + 1))).map (fun k => iMin + 1 + k)
        let dups1 := js.foldl
          (fun d j => d.filter (fun kv => decide (kv.1 ≠ walk.getD j 0))) dups
        let dets2 := js.foldl (fun d j => d.erase j) dets1
        let walk1 := walk.take (iMin + 1) ++ walk.drop (iMin + 1 + (iMax - iMin))
        simplifyWalk fuel walk1 dups1 dets2 (iMin + 1)
    else (walk, dets)

/-- `simplifyWalk` with always-sufficient fuel, started as in the source
(empty map and set, index 1). -/
def simplifyWalkT (walk : List ℕ) : List ℕ × List ℕ :=
  simplifyWalk ((walk.length + 1) * (walk.length + 1)) walk [] [] 1

/-- `extractCycle`: copy the walk's names into the cycle, then unwind the
cycle's edges from the live graph: delete the first edge, set the branch
marker, and run the two degree-1 trims (see `stripWalk`). -/
def extractCycle (s : Store) (walk : List ℕ) : List ℕ × Store :=
  let cycle := walk.map (fun h => (getV s h).name)
  let v0 := walk.getD 0 0
  let v1 := walk.getD 1 0
  let vBranch : Option ℕ := if 2 < deg s v0 then some v0 else none
  let s1 := adjDel (adjDel s v0 v1) v1 v0
  let fwd := stripWalkT vBranch s1 v1
  let s3 := if fwd.2 ≠ v0 then (stripWalkT (some fwd.2) fwd.1 v0).1 else fwd.1
  (cycle, s3)

/-- The iterative `depthFirstSearch` loop: mark the stack top discovered,
push its first unvisited neighbour, otherwise mark it finished, append it
to the component and pop. -/
def dfsLoop : ℕ → Store → List ℕ → List ℕ → Except RunError (Store × List ℕ)
  | 0, _, _, _ => .error RunError.fuelOut
  | fuel + 1, s, stack, comp =>
    match stack with
    | [] => .ok (s, comp)
    | top :: rest =>
      let s1 := setVisited s top 1
      match (getV s1 top).adjacent.find?
          (fun a => decide ((getV s1 a).visited = 0)) with
      | some a => dfsLoop fuel s1 (a :: top :: rest) comp
      | none => dfsLoop fuel (setVisited s1 top 2) rest (comp ++ [top])

/-- `PlanarFaceTree.depthFirstSearch`. -/
def depthFirstSearch (fuel : ℕ) (s : Store) (vInitial : ℕ) :
    Except RunError (Store × List ℕ) :=
  dfsLoop fuel s [vInitial] []

/-- `CycleTree` from src/planar-face-tree.ts. -/
inductive CycleTree where
  | mk (cycle : List ℕ) (children : List CycleTree)

/-- The `cycle` field. -/
def CycleTree.cycle : CycleTree → List ℕ
  | .mk c _ => c

/-- The `children` field. -/
def CycleTree.children : CycleTree → List CycleTree
  | .mk _ ch => ch

/-- `CycleTree.isEmpty`. -/
def CycleTree.isEmptyTree : CycleTree → Bool
  | .mk c ch => c.isEmpty && ch.isEmpty

/-- The unwrap rule shared by `extractBasis` and the degenerate branch of
`extractCycleFromClosedWalk`: a tree with no cycle and exactly one child is
replaced by that child (the source copies the last child's fields). -/
def unwrapTree : CycleTree → CycleTree
  | .mk cycle children =>
    if cycle.length = 0 ∧ children.length = 1 then
      .mk (children.getLastD (.mk [] [])).cycle
        (children.getLastD (.mk [] [])).children
    else .mk cycle children

mutual

/-- `extractBasis`: loop pruning filaments and extracting cycles until the
component is empty, then apply the unwrap rule to the aggregator. -/
def extractBasis : ℕ → Store → List ℕ → Except RunError (CycleTree × Store)
  | 0, _, _ => .error RunError.fuelOut
  | fuel + 1, s, comp =>
    match basisLoop fuel s comp [] with
    | .error e => .error e
    | .ok (children, s1) => .ok (unwrapTree (.mk [] children), s1)

/-- The while loop of `extractBasis`. -/
def basisLoop : ℕ → Store → List ℕ → List CycleTree →
    Except RunError (List CycleTree × Store)
  | 0, _, _, _ => .error RunError.fuelOut
  | fuel + 1, s, comp, acc =>
    if comp.length = 0 then .ok (acc, s)
    else
      let pr := removeFilaments s comp
      if pr.2.length = 0 then .ok (acc, pr.1)
      else
        match extractCycleFromComponent fuel pr.1 pr.2 with
        | .error e => .error e
        | .ok (t, s2, comp2) => basisLoop fuel s2 comp2 (acc ++ [t])

/-- `extractCycleFromComponent`: find the left-most vertex, build the closed
walk, extract its `CycleTree`, then drop the orphaned (degree-0) vertices
from the component. -/
def extractCycleFromComponent : ℕ → Store → List ℕ →
    Except RunError (CycleTree × Store × List ℕ)
  | 0, _, _ => .error RunError.fuelOut
  | fuel + 1, s, comp =>
    match buildClosedWalk fuel s (findMinVertex s comp) with
    | .error e => .error e
    | .ok walk =>
      match extractCycleFromClosedWalk fuel s walk with
      | .error e => .error e
      | .ok (t, s1) =>
        .ok (t, s1, comp.filter (fun v => decide (0 < deg s1 v)))

/-- `extractCycleFromClosedWalk`: simplify the self-intersections; for a
real cycle (> 3 walk entries) process every detachment index (and index 0)
and finalise with `extractCycle`; otherwise move the single edge to a clone
of the start vertex and recurse on the clone's component. -/
def extractCycleFromClosedWalk : ℕ → Store → List ℕ →
    Except RunError (CycleTree × Store)
  | 0, _, _ => .error RunError.fuelOut
  | fuel + 1, s, walk0 =>
    let pr := simplifyWalkT walk0
    if 3 < pr.1.length then
      match detachLoop fuel s pr.1 (pr.2 ++ [0]) [] with
      | .error e => .error e
      | .ok (children, s1) =>
        let cy := extractCycle s1 pr.1
        .ok (.mk cy.1 children, cy.2)
    else
      let original := pr.1.getD 0 0
      let adjacent := pr.1.getD 1 0
      let cloneH := s.length
      let s1 := s ++ [⟨(getV s original).name, (getV s original).position, [], 0⟩]
      let s2 := adjAdd (adjAdd (adjDel (adjDel s1 original adjacent)
        adjacent original) cloneH adjacent) adjacent cloneH
      match depthFirstSearch fuel s2 cloneH with
      | .error e => .error e
      | .ok (s3, compN) =>
        match extractBasis fuel s3 compN with
        | .error e => .error e
        | .ok (child, s4) => .ok (unwrapTree (.mk [] [child]), s4)

/-- The forEach over the `detachments` set: compute the wedge at the
detachment vertex, and when some adjacent vertices fall inside it, move
those edges to a fresh clone of the vertex, DFS from the clone and recurse
with `extractBasis` on the resulting component. -/
def detachLoop : ℕ → Store → List ℕ → List ℕ → List CycleTree →
    Except RunError (List CycleTree × Store)
  | 0, _, _, _, _ => .error RunError.fuelOut
  | fuel + 1, s, walk, dets, acc =>
    match dets with
    | [] => .ok (acc, s)
    | i :: rest =>
      let n := walk.length
      let original := walk.getD i 0
      let maxVertex := walk.getD (i + 1) 0
      let minVertex := if i > 0 then walk.getD (i - 1) 0 else walk.getD (n - 2) 0
      let pO := (getV s original).position
      let dMin : Pt := (qSub (getV s minVertex).position.1 pO.1,
                        qSub (getV s minVertex).position.2 pO.2)
      let dMax : Pt := (qSub (getV s maxVertex).position.1 pO.1,
                        qSub (getV s maxVertex).position.2 pO.2)
      let isConvex := decide (qMul dMax.1 dMin.2 ≥ qMul dMax.2 dMin.1)
      let inWedge := (getV s original).adjacent.filter (fun w =>
        if (getV s w).name = (getV s minVertex).name ∨
            (getV s w).name = (getV s maxVertex).name then false
        else
          let dVer : Pt := (qSub (getV s w).position.1 pO.1,
                            qSub (getV s w).position.2 pO.2)
          if isConvex then
            decide (qMul dVer.1 dMin.2 > qMul dVer.2 dMin.1 ∧
                    qMul dVer.1 dMax.2 < qMul dVer.2 dMax.1)
          else
            decide (qMul dVer.1 dMin.2 > qMul dVer.2 dMin.1 ∨
                    qMul dVer.1 dMax.2 < qMul dVer.2 dMax.1))
      if inWedge.length > 0 then
        let cloneH := s.length
        let s1 := s ++ [⟨(getV s original).name, (getV s original).position, [], 0⟩]
        let s2 := inWedge.foldl
          (fun t w => adjAdd (adjAdd (adjDel (adjDel t original w) w original)
            cloneH w) w cloneH) s1
        match depthFirstSearch fuel s2 cloneH with
        | .error e => .error e
        | .ok (s3, compN) =>
          match extractBasis fuel s3 compN with
          | .error e => .error e
          | .ok (child, s4) => detachLoop fuel s4 walk rest (acc ++ [child])
      else detachLoop fuel s walk rest acc

end

/-- The vertex-construction pass of `discover`: one record per distinct
name appearing in an edge, appended to the instance's vertex store in
first-encounter order, together with the name → handle map (the `unique`
map of the source). -/
def bvStep (positions : List Pt) (st : Store × List (ℕ × ℕ)) (name : ℕ) :
    Store × List (ℕ × ℕ) :=
  match List.lookup name st.2 with
  | some _ => st
  | none => (st.1 ++ [⟨name, positions.getD name (0, 0), [], 0⟩],
             st.2 ++ [(name, st.1.length)])

def buildVertices (positions : List Pt) (edges : List InputEdge)
    (s : Store) : Store × List (ℕ × ℕ) :=
  edges.foldl
    (fun (st : Store × List (ℕ × ℕ)) e =>
      bvStep positions (bvStep positions st e.1.toNat) e.2.toNat)
    (s, [])

/-- The adjacency-construction pass of `discover`: insert each edge's
endpoints into each other's adjacency sets. -/
def addEdges (edges : List InputEdge) (uniq : List (ℕ × ℕ)) (s : Store) :
    Store :=
  edges.foldl
    (fun t e =>
      match List.lookup e.1.toNat uniq, List.lookup e.2.toNat uniq with
      | some h0, some h1 => adjAdd (adjAdd t h0 h1) h1 h0
      | _, _ => t)
    s

/-- The component-seeding forEach of `discover`: every store vertex still
unvisited seeds a DFS whose post-order result is one component. -/
def componentsLoop (fuel : ℕ) : List ℕ → Store → List (List ℕ) →
    Except RunError (Store × List (List ℕ))
  | [], s, comps => .ok (s, comps)
  | h :: rest, s, comps =>
    if (getV s h).visited = 0 then
      match depthFirstSearch fuel s h with
      | .error e => .error e
      | .ok (s1, comp) => componentsLoop fuel rest s1 (comps ++ [comp])
    else componentsLoop fuel rest s comps

/-- The forEach pushing `extractBasis` of every component onto the forest. -/
def forestLoop (fuel : ℕ) : List (List ℕ) → Store → List CycleTree →
    Except RunError (List CycleTree × Store)
  | [], s, acc => .ok (acc, s)
  | c :: rest, s, acc =>
    match extractBasis fuel s c with
    | .error e => .error e
    | .ok (t, s1) => forestLoop fuel rest s1 (acc ++ [t])

/-- `DiscoveryResult | DiscoveryError` of the source: either a validation
error value or a forest. -/
inductive DiscoverOutcome where
  | error (reason : DiscoveryErrorCode)
  | result (forest : List CycleTree)

/-- `PlanarFaceTree.discover`.  `s0` is the instance's vertex store at call
time (empty for a fresh instance; `discover` only ever appends to it). -/
def discover (s0 : Store) (positions : List Pt) (edges : List InputEdge)
    (fuel : ℕ) : Except RunError (DiscoverOutcome × Store) :=
  match validateInputs positions edges with
  | some e => .ok (.error e, s0)
  | none =>
    let pr := buildVertices positions edges s0
    let s2 := addEdges edges pr.2 pr.1
    match componentsLoop fuel (List.range s2.length) s2 [] with
    | .error e => .error e
    | .ok (s3, comps) =>
      let s4 := s3.map (fun v => { v with visited := 0 })
      match forestLoop fuel comps s4 [] with
      | .error e => .error e
      | .ok (forest, s5) =>
        .ok (.result (forest.filter (fun t => !t.isEmptyTree)), s5)

/-! ### Area tree (src/area-tree.ts) -/

/-- `Polygon` from src/area-tree.ts. -/
structure Polygon where
  edges : List ℕ
  id : ℕ
  visited : Bool
  area : ℚ

/-- `AreaTreeChild` (children of a CHILD node are CHILD nodes). -/
inductive ATChild where
  | mk (polygonIndex : ℕ) (total : ℚ) (withoutChildren : ℚ)
       (polygon : List ℕ) (children : List ATChild)

/-- The `polygonIndex` field. -/
def ATChild.polygonIndex : ATChild → ℕ
  | .mk i _ _ _ _ => i

/-- The `area.total` field. -/
def ATChild.total : ATChild → ℚ
  | .mk _ t _ _ _ => t

/-- The `area.withoutChildren` field. -/
def ATChild.withoutChildren : ATChild → ℚ
  | .mk _ _ w _ _ => w

/-- The `polygon` field. -/
def ATChild.polygon : ATChild → List ℕ
  | .mk _ _ _ p _ => p

/-- The `children` field. -/
def ATChild.children : ATChild → List ATChild
  | .mk _ _ _ _ c => c

/-- `AreaTree`: a ROOT aggregator or a CHILD node. -/
inductive ATree where
  | root (children : List ATChild)
  | child (c : ATChild)

/-- `parent.children.push(newTree)`. -/
def ATree.pushChild : ATree → ATChild → ATree
  | .root ch, c => .root (ch ++ [c])
  | .child (.mk i t w p ch), c => .child (.mk i t w p (ch ++ [c]))

/-- `parent.area.withoutChildren -= a`, applied only to CHILD parents. -/
def ATree.decrementWC : ATree → ℚ → ATree
  | .root ch, _ => .root ch
  | .child (.mk i t w p ch), a => .child (.mk i t (qSub w a) p ch)

/-- `true` exactly for the ROOT aggregator. -/
def ATree.isRoot : ATree → Bool
  | .root _ => true
  | .child _ => false

/-- `none` for the ROOT aggregator, the node's `total` for a CHILD. -/
def ATree.totalOf : ATree → Option ℚ
  | .root _ => none
  | .child c => some c.total

/-- `isChildArea` from src/area-tree.ts (the source reads
`currentPolygonPointPath[0]`, only ever on the non-empty cycles that the
flattening keeps; the empty case is modelled as `(0,0)`). -/
def isChildArea (childPolygon : Polygon) (parent : ATChild)
    (polygons : List Polygon) (nodes : List Pt) : Bool :=
  let parentPointPath := getPointPath nodes
    (polygons.getD parent.polygonIndex ⟨[], 0, false, 0⟩).edges
  let currentPolygonPointPath := getPointPath nodes childPolygon.edges
  let pointOnCurrentPolygon := currentPolygonPointPath.headD (0, 0)
  isInside pointOnCurrentPolygon parentPointPath &&
  !allPointsLieOnBoundary currentPolygonPointPath (getLinePath parentPointPath)

/-- One loop step's decorated polygon record at index `i`. -/
def polyAt (polygons : List Polygon) (i : ℕ) : Polygon :=
  polygons.getD i ⟨[], 0, false, 0⟩

/-- `p.visited = true` for the record at index `i`. -/
def markVisited (polygons : List Polygon) (i : ℕ) : List Polygon :=
  polygons.set i ⟨(polyAt polygons i).edges, (polyAt polygons i).id, true,
    (polyAt polygons i).area⟩

/-- The fresh CHILD node of the adoption step: `total` and
`withoutChildren` start as the polygon's area. -/
def newChildAt (polygons : List Polygon) (i : ℕ) : ATChild :=
  .mk i (polyAt polygons i).area (polyAt polygons i).area
    (polyAt polygons i).edges []

/-- The adoption test: a ROOT parent adopts unconditionally (the JS `||`
short-circuits), a CHILD parent adopts by `isChildArea`. -/
def travAdoptCond (nodes : List Pt) (polygons : List Polygon)
    (parent : ATree) (i : ℕ) : Bool :=
  match parent with
  | .root _ => true
  | .child pc => isChildArea (polyAt polygons i) pc polygons nodes

/-- Extract the CHILD of an `ATree` (the recursion of `traverseAreas` is
seeded with a CHILD and returns one; the ROOT fallback is never taken). -/
def childOr (dflt : ATChild) : ATree → ATChild
  | .child c => c
  | .root _ => dflt

/-- `traverseAreas` from src/area-tree.ts: the for loop from index `i` with
the recursive nesting assignment.  The source pushes the fresh CHILD and
then mutates it in place through the recursive call (guarded by
`polygons[i+1]` being defined); functionally the recursion result is
pushed.  The fuel only bounds the call depth and is chosen large enough by
`buildNestingTree`. -/
def traverseAreas (nodes : List Pt) :
    ℕ → List Polygon → ATree → ℕ → List Polygon × ATree
  | 0, polygons, parent, _ => (polygons, parent)
  | fuel + 1, polygons, parent, i =>
    if i < polygons.length then
      if (polyAt polygons i).visited then
        traverseAreas nodes fuel polygons parent (i + 1)
      else if travAdoptCond nodes polygons parent i then
        let res := if i + 1 < polygons.length
          then traverseAreas nodes fuel (markVisited polygons i)
            (.child (newChildAt polygons i)) (i + 1)
          else (markVisited polygons i, ATree.child (newChildAt polygons i))
        traverseAreas nodes fuel res.1
          ((parent.pushChild (childOr (newChildAt polygons i)
            res.2)).decrementWC (polyAt polygons i).area) (i + 1)
      else traverseAreas nodes fuel polygons parent (i + 1)
    else (polygons, parent)

/-- The in-place recursion of the adoption step (the `polygons[i+1]` guard
skips it on the last index, where it would do nothing anyway). -/
def travRes (nodes : List Pt) (fuel : ℕ) (polygons : List Polygon)
    (i : ℕ) : List Polygon × ATree :=
  if i + 1 < polygons.length
  then traverseAreas nodes fuel (markVisited polygons i)
    (.child (newChildAt polygons i)) (i + 1)
  else (markVisited polygons i, ATree.child (newChildAt polygons i))

/-- Insert a polygon into a descending-by-area list, after every entry of
greater *or equal* area: combined with the left-to-right fold of
`sortByAreaDesc` this reproduces the stable JS `sort` with comparator
`(a, b) => b.area - a.area`. -/
def insertDesc (x : Polygon) : List Polygon → List Polygon
  | [] => [x]
  | y :: ys => if y.area ≥ x.area then y :: insertDesc x ys else x :: y :: ys

/-- Stable sort by descending area. -/
def sortByAreaDesc (l : List Polygon) : List Polygon :=
  l.foldl (fun acc x => insertDesc x acc) []

/-- `buildNestingTree`: decorate each polygon with its index and area, sort
by descending area (stable, like the JS comparator `b.area - a.area`), and
traverse from a fresh ROOT.  The fuel exceeds the maximal call depth
`(length + 1)²` of `traverseAreas`. -/
def buildNestingTree (nodes : List Pt) (polygons : List InputPolygon) :
    ATree :=
  let inputPolygons := sortByAreaDesc (polygons.enum.map
    (fun p => Polygon.mk p.2.edges p.1 false (getPolygonArea nodes p.2)))
  (traverseAreas nodes
    ((inputPolygons.length + 1) * (inputPolygons.length + 1) + 1)
    inputPolygons (.root []) 0).2

mutual

/-- `getCyclesFromCycleForest` from src/area-tree.ts: pre-order collection
of every cycle list of the forest (the caller filters out the empties). -/
def getCyclesFromCycleForest : List CycleTree → List (List ℕ)
  | [] => []
  | t :: ts => cyclesOfTree t ++ getCyclesFromCycleForest ts

/-- The per-tree part of `getCyclesFromCycleForest`. -/
def cyclesOfTree : CycleTree → List (List ℕ)
  | .mk c ch => c :: getCyclesFromCycleForest ch

end

/-- The failure modes of `getAreaTree`: the thrown `Error(faces.reason)` on
a discovery error value, or a runtime outcome of `discover` itself. -/
inductive AreaError where
  | discovery (reason : DiscoveryErrorCode)
  | run (e : RunError)

/-- `getAreaTree` from src/area-tree.ts: run `discover` on a fresh
instance, throw on a discovery error, flatten the forest to its non-empty
cycles and build the nesting tree. -/
def getAreaTree (nodes : List Pt) (edges : List InputEdge) (fuel : ℕ) :
    Except AreaError ATree :=
  match discover [] nodes edges fuel with
  | .error e => .error (.run e)
  | .ok (.error reason, _) => .error (.discovery reason)
  | .ok (.result forest, _) =>
    let flattenedFaces := (getCyclesFromCycleForest forest).filter
      (fun c => !c.isEmpty)
    .ok (buildNestingTree nodes (flattenedFaces.map (fun f => ⟨f⟩)))

/-! ### The two-call counterexample run (the square with both diagonals)

Concrete intermediate states of `discover [] sqPositions sqEdges 100`,
used to check that run stepwise. -/

/-- The square's corners. -/
def sqPositions : List Pt := [(0, 0), (2, 0), (2, 2), (0, 2)]

/-- The four sides and the two crossing diagonals. -/
def sqEdges : List InputEdge := [(0, 1), (1, 2), (2, 3), (3, 0), (0, 2), (1, 3)]

/-- The store after `buildVertices` + `addEdges` (also the store after the
visited-reset, which restores exactly this state). -/
def sqStore : Store :=
  [⟨0, (0, 0), [1, 3, 2], 0⟩, ⟨1, (2, 0), [0, 2, 3], 0⟩,
   ⟨2, (2, 2), [1, 3, 0], 0⟩, ⟨3, (0, 2), [2, 0, 1], 0⟩]

/-- The store after the component-finding DFS pass. -/
def sqStoreMarked : Store :=
  [⟨0, (0, 0), [1, 3, 2], 2⟩, ⟨1, (2, 0), [0, 2, 3], 2⟩,
   ⟨2, (2, 2), [1, 3, 0], 2⟩, ⟨3, (0, 2), [2, 0, 1], 2⟩]

/-- The store `discover` leaves behind: every record (including the clone
of vertex 0 appended by the wedge detachment) has an empty adjacency set
and visited mark `2`. -/
def sqStoreFinal : Store :=
  [⟨0, (0, 0), [], 2⟩, ⟨1, (2, 0), [], 2⟩, ⟨2, (2, 2), [], 2⟩,
   ⟨3, (0, 2), [], 2⟩, ⟨0, (0, 0), [], 2⟩]

/-- The tree `discover` returns on the square with both diagonals. -/
def sqTree : CycleTree :=
  .mk [0, 1, 3, 0] [.mk [] [.mk [0, 1, 3, 0] [], .mk [3, 1, 2, 3] []]]

/-- The store after the second call (single edge `0-1`): the five stale
records reset to visited `0` plus the two fresh records. -/
def sqSecondStore : Store :=
  [⟨0, (0, 0), [], 0⟩, ⟨1, (2, 0), [], 0⟩, ⟨2, (2, 2), [], 0⟩,
   ⟨3, (0, 2), [], 0⟩, ⟨0, (0, 0), [], 0⟩, ⟨0, (0, 0), [], 0⟩,
   ⟨1, (1, 0), [], 0⟩]

/-! ### Predicates the claims are stated with -/

mutual

/-- Every cycle list in the tree is empty or closed (first name = last). -/
def treeClosed : CycleTree → Bool
  | .mk c ch => (c.isEmpty || decide (c.headD 0 = c.getLastD 0)) &&
      forestClosed ch

/-- `treeClosed` over a forest. -/
def forestClosed : List CycleTree → Bool
  | [] => true
  | t :: ts => treeClosed t && forestClosed ts

end

/-- Sum of the `total` areas of a list of CHILD nodes. -/
def sumTotals : List ATChild → ℚ
  | [] => 0
  | c :: cs => qAdd c.total (sumTotals cs)

mutual

/-- `withoutChildren = total − Σ direct children's totals`, at every node
of the subtree. -/
def wcInv : ATChild → Bool
  | .mk _ t w _ ch => decide (w = qSub t (sumTotals ch)) && wcInvList ch

/-- `wcInv` over a list of CHILD nodes. -/
def wcInvList : List ATChild → Bool
  | [] => true
  | c :: cs => wcInv c && wcInvList cs

end

/-- `wcInv` at every CHILD node of an `ATree`. -/
def atreeWcInv : ATree → Bool
  | .root ch => wcInvList ch
  | .child c => wcInv c

/-- Adjacency is symmetric and stays within the store (as the undirected
construction of `discover` guarantees). -/
def SymmAdj (s : Store) : Prop :=
  ∀ a, a < s.length → ∀ b, b ∈ (getV s a).adjacent →
    b < s.length ∧ a ∈ (getV s b).adjacent

/-- Every in-range adjacency list is duplicate-free (JS `Set` semantics;
out-of-range handles dereference to the default record, whose list is
empty). -/
def AdjNodup (s : Store) : Prop :=
  ∀ a, a < s.length → (getV s a).adjacent.Nodup

/-- The component is closed under adjacency. -/
def CompClosed (s : Store) (comp : List ℕ) : Prop :=
  ∀ v ∈ comp, ∀ w ∈ (getV s v).adjacent, w ∈ comp

/-- A simple cycle of the adjacency relation: a closed sequence of at least
3 distinct vertices whose consecutive entries are adjacent. -/
def IsSimpleCycle (s : Store) (l : List ℕ) : Prop :=
  4 ≤ l.length ∧ l.head? = l.getLast? ∧
  l.Chain' (fun a b => b ∈ (getV s a).adjacent) ∧ l.dropLast.Nodup

/-- The component contains a cycle: a self-loop, or a simple cycle lying
inside the component. -/
def HasCycle (s : Store) (comp : List ℕ) : Prop :=
  (∃ v ∈ comp, v ∈ (getV s v).adjacent) ∨
  (∃ l : List ℕ, IsSimpleCycle s l ∧ ∀ x ∈ l, x ∈ comp)

/-- The per-endpoint body of the `removeFilaments` stripping fold. -/
def rfStrip (t : Store) (v : ℕ) : Store :=
  if deg t v = 1 then (stripWalkT none t v).1 else t

/-- The degree-1 endpoints collected (once, up front) by `removeFilaments`. -/
def rfEndpoints (s : Store) (comp : List ℕ) : List ℕ :=
  comp.filter (fun v => decide (deg s v = 1))

/-- Shape invariant carried through the filament stripping: symmetric,
duplicate-free adjacency, unchanged store length, and adjacency sets that
only ever shrink relative to the initial store `s0`. -/
def StripInv (s0 s : Store) : Prop :=
  SymmAdj s ∧ AdjNodup s ∧ s.length = s0.length ∧
  ∀ x y, y ∈ (getV s x).adjacent → y ∈ (getV s0 x).adjacent

/-- A simple path of the adjacency relation inside a component: non-empty,
consecutive entries adjacent, no repeated vertex, all inside `comp`. -/
def IsPath (s : Store) (comp : List ℕ) (l : List ℕ) : Prop :=
  l ≠ [] ∧ List.Chain' (fun a b => b ∈ (getV s a).adjacent) l ∧ l.Nodup ∧
  ∀ x ∈ l, x ∈ comp

instance decSymmAdj (s : Store) : Decidable (SymmAdj s) :=
  decidable_of_iff (∀ a, a < s.length → ∀ b, b ∈ (getV s a).adjacent →
    b < s.length ∧ a ∈ (getV s b).adjacent) Iff.rfl

instance decAdjNodup (s : Store) : Decidable (AdjNodup s) :=
  decidable_of_iff (∀ a, a < s.length → (getV s a).adjacent.Nodup) Iff.rfl

instance decCompClosed (s : Store) (comp : List ℕ) :
    Decidable (CompClosed s comp) :=
  decidable_of_iff (∀ v ∈ comp, ∀ w ∈ (getV s v).adjacent, w ∈ comp) Iff.rfl

/-- A triangle store (concrete input for the C4 witness). -/
def triStore : Store :=
  [⟨0, (0, 0), [1, 2], 0⟩, ⟨1, (1, 0), [0, 2], 0⟩, ⟨2, (0, 1), [0, 1], 0⟩]

/-! ### The reducible rational operations agree with the standard ones -/

theorem qAdd_eq (a b : ℚ) : qAdd a b = a + b := by
  rw [qAdd, Rat.mkRat_eq_div]
  have ha : ((a.den : ℚ)) ≠ 0 := Nat.cast_ne_zero.mpr a.den_nz
  have hb : ((b.den : ℚ)) ≠ 0 := Nat.cast_ne_zero.mpr b.den_nz
  rw [show (a : ℚ) + b = (a.num : ℚ) / a.den + (b.num : ℚ) / b.den by
    rw [Rat.num_div_den, Rat.num_div_den]]
  push_cast
  field_simp

theorem qSub_eq (a b : ℚ) : qSub a b = a - b := by
  rw [qSub, Rat.mkRat_eq_div]
  have ha : ((a.den : ℚ)) ≠ 0 := Nat.cast_ne_zero.mpr a.den_nz
  have hb : ((b.den : ℚ)) ≠ 0 := Nat.cast_ne_zero.mpr b.den_nz
  rw [show (a : ℚ) - b = (a.num : ℚ) / a.den - (b.num : ℚ) / b.den by
    rw [Rat.num_div_den, Rat.num_div_den]]
  push_cast
  field_simp
  ring

theorem qMul_eq (a b : ℚ) : qMul a b = a * b := by
  rw [qMul, Rat.mkRat_eq_div]
  have ha : ((a.den : ℚ)) ≠ 0 := Nat.cast_ne_zero.mpr a.den_nz
  have hb : ((b.den : ℚ)) ≠ 0 := Nat.cast_ne_zero.mpr b.den_nz
  rw [show (a : ℚ) * b = ((a.num : ℚ) / a.den) * ((b.num : ℚ) / b.den) by
    rw [Rat.num_div_den, Rat.num_div_den]]
  push_cast
  field_simp

theorem qDiv_eq (a b : ℚ) : qDiv a b = a / b := by
  rw [qDiv]
  by_cases hz : b.num = 0
  · have hb0 : b = 0 := Rat.num_eq_zero.mp hz
    rw [if_pos (le_of_eq hz.symm)]
    rw [hz]
    simp [hb0, Rat.mkRat_eq_div]
  · have ha : ((a.den : ℚ)) ≠ 0 := Nat.cast_ne_zero.mpr a.den_nz
    have hb2 : ((b.den : ℚ)) ≠ 0 := Nat.cast_ne_zero.mpr b.den_nz
    have hbq : ((b.num : ℚ)) ≠ 0 := Int.cast_ne_zero.mpr hz
    have hrhs : a / b = ((a.num : ℚ) * b.den) / ((a.den : ℚ) * b.num) := by
      rw [show (a : ℚ) / b = ((a.num : ℚ) / a.den) / ((b.num : ℚ) / b.den) by
        rw [Rat.num_div_den, Rat.num_div_den]]
      field_simp
    split_ifs with hpos
    · have hcast : ((b.num.natAbs : ℚ)) = (b.num : ℚ) := by
        rw [Int.cast_natAbs, abs_of_nonneg (by exact_mod_cast hpos)]
      rw [Rat.mkRat_eq_div, hrhs]
      push_cast
      rw [hcast]
    · push_neg at hpos
      have hcast : ((b.num.natAbs : ℚ)) = -(b.num : ℚ) := by
        rw [Int.cast_natAbs, abs_of_nonpos (by exact_mod_cast le_of_lt hpos)]
        push_cast
        ring
      rw [Rat.mkRat_eq_div, hrhs]
      push_cast
      rw [hcast, mul_neg, neg_div_neg_eq]

theorem qListSum_eq (l : List ℚ) : qListSum l = l.sum := by
  induction l with
  | nil => rfl
  | cons x xs ih => rw [qListSum, qAdd_eq, ih, List.sum_cons]

/-! ### Geometry lemmas -/

theorem segTerm_eq (a b : Pt) : segTerm a b = (b.1 - a.1) * (b.2 + a.2) := by
  rw [segTerm, qMul_eq, qSub_eq, qAdd_eq]

theorem adjTermSum_cons_cons (a b : Pt) (t : List Pt) :
    adjTermSum (a :: b :: t) = segTerm a b + adjTermSum (b :: t) := by
  rw [adjTermSum, qAdd_eq]

theorem windingSum_split (l : List Pt) :
    windingSum l = adjTermSum l + segTerm (lastPt l) (headPt l) := by
  rw [windingSum, qAdd_eq]

theorem segTerm_swap (a b : Pt) : segTerm b a = -segTerm a b := by
  rw [segTerm_eq, segTerm_eq]
  ring

theorem getLastD_eq_getLast?_getD {α : Type} (l : List α) (d : α) :
    l.getLastD d = l.getLast?.getD d := by
  induction l generalizing d with
  | nil => rfl
  | cons a t ih =>
    rw [List.getLastD_cons]
    cases t with
    | nil => rfl
    | cons b t2 => rw [ih]; rfl

theorem lastPt_reverse (l : List Pt) : lastPt l.reverse = headPt l := by
  rw [lastPt, headPt, getLastD_eq_getLast?_getD, List.getLast?_reverse,
    List.headD_eq_head?_getD]

theorem headPt_reverse (l : List Pt) : headPt l.reverse = lastPt l := by
  rw [headPt, List.headD_eq_head?_getD, List.head?_reverse, lastPt,
    getLastD_eq_getLast?_getD]

theorem lastPt_cons_cons (a b : Pt) (t : List Pt) :
    lastPt (a :: b :: t) = lastPt (b :: t) := by
  rw [lastPt, lastPt, getLastD_eq_getLast?_getD, getLastD_eq_getLast?_getD,
    List.getLast?_cons_cons]

theorem adjTermSum_append_last (l : List Pt) (a : Pt) (hl : l ≠ []) :
    adjTermSum (l ++ [a]) = adjTermSum l + segTerm (lastPt l) a := by
  induction l with
  | nil => exact absurd rfl hl
  | cons b t ih =>
    cases t with
    | nil => simp [adjTermSum, lastPt, qAdd_eq]
    | cons c t2 =>
      have h2 := ih (by simp)
      rw [List.cons_append] at h2
      rw [List.cons_append, List.cons_append,
        adjTermSum_cons_cons b c (t2 ++ [a]), h2, lastPt_cons_cons,
        adjTermSum_cons_cons b c t2]
      ring

theorem adjTermSum_reverse (l : List Pt) :
    adjTermSum l.reverse = -adjTermSum l := by
  induction l with
  | nil => simp [adjTermSum]
  | cons a t ih =>
    cases t with
    | nil => simp [adjTermSum]
    | cons b t2 =>
      have hne : (b :: t2).reverse ≠ [] := by simp
      rw [List.reverse_cons, adjTermSum_append_last _ _ hne, ih,
        lastPt_reverse, adjTermSum_cons_cons]
      have hh : headPt (b :: t2) = b := rfl
      rw [hh, segTerm_swap]
      ring

theorem windingSum_reverse (l : List Pt) :
    windingSum l.reverse = -windingSum l := by
  rw [windingSum_split, windingSum_split, adjTermSum_reverse, lastPt_reverse,
    headPt_reverse, segTerm_swap]
  ring

/-- Claim C8 helper: the winding order is decided purely by the sign of
`windingSum`. -/
theorem determineWindingOrder_eq (l : List Pt) :
    determineWindingOrder l =
      if windingSum l = 0 then WindingOrder.COLINEAR
      else if windingSum l > 0 then WindingOrder.CW else WindingOrder.CCW := rfl

/-- C8: `determineWindingOrder` is self-dual: reversing the point sequence
swaps CW and CCW and preserves COLINEAR. -/
theorem determineWindingOrder_self_dual (points : List Pt) :
    (determineWindingOrder points.reverse = WindingOrder.CW ↔
      determineWindingOrder points = WindingOrder.CCW) ∧
    (determineWindingOrder points.reverse = WindingOrder.CCW ↔
      determineWindingOrder points = WindingOrder.CW) ∧
    (determineWindingOrder points.reverse = WindingOrder.COLINEAR ↔
      determineWindingOrder points = WindingOrder.COLINEAR) := by
  rw [determineWindingOrder_eq, determineWindingOrder_eq,
    windingSum_reverse]
  rcases lt_trichotomy (windingSum points) 0 with hlt | heq | hgt
  · rw [if_neg (by linarith), if_pos (by linarith), if_neg (by linarith),
      if_neg (by linarith)]
    refine ⟨by simp, by simp, by simp⟩
  · rw [heq]
    simp
  · rw [if_neg (by linarith), if_neg (by linarith), if_neg (by linarith),
      if_pos hgt]
    refine ⟨by simp, by simp, by simp⟩

theorem areaUnderLineSegment_eq (p : Pt × Pt) :
    areaUnderLineSegment p = segTerm p.1 p.2 / 2 := by
  rw [areaUnderLineSegment, segTerm_eq, qMul_eq, qDiv_eq, qAdd_eq, qSub_eq]
  ring

theorem linePathGo_area_sum (first : Pt) (l : List Pt) (hl : l ≠ []) :
    ((linePathGo first l).map areaUnderLineSegment).sum
      = adjTermSum l / 2 + segTerm (lastPt l) first / 2 := by
  induction l with
  | nil => exact absurd rfl hl
  | cons b t ih =>
    cases t with
    | nil =>
      simp [linePathGo, adjTermSum, lastPt, areaUnderLineSegment_eq]
    | cons c t2 =>
      have h2 := ih (by simp)
      have hlp : linePathGo first (b :: c :: t2)
          = (b, c) :: linePathGo first (c :: t2) := rfl
      rw [hlp, List.map_cons, List.sum_cons, h2, areaUnderLineSegment_eq,
        adjTermSum_cons_cons, lastPt_cons_cons]
      have hbc : segTerm ((b, c) : Pt × Pt).1 ((b, c) : Pt × Pt).2
          = segTerm b c := rfl
      rw [hbc]
      ring

theorem getLinePath_area_sum (l : List Pt) :
    ((getLinePath l).map areaUnderLineSegment).sum = windingSum l / 2 := by
  cases l with
  | nil =>
    rw [windingSum_split]
    simp [getLinePath, adjTermSum, lastPt, headPt, segTerm_eq]
  | cons h t =>
    rw [getLinePath, linePathGo_area_sum h (h :: t) (by simp),
      windingSum_split]
    have hh : headPt (h :: t) = h := rfl
    rw [hh]
    ring

/-- C5: `getPolygonArea` is non-negative, and vanishes exactly when the
polygon's point path has COLINEAR winding order. -/
theorem getPolygonArea_nonneg_zero_iff_colinear (nodes : List Pt)
    (polygon : InputPolygon) :
    0 ≤ getPolygonArea nodes polygon ∧
    (getPolygonArea nodes polygon = 0 ↔
      determineWindingOrder (getPointPath nodes polygon.edges)
        = WindingOrder.COLINEAR) := by
  set pp := getPointPath nodes polygon.edges with hpp
  have hcw : irregularPolygonArea (getLinePath pp) WindingOrder.CW
      = windingSum pp / 2 := by
    show qListSum ((getLinePath pp).map areaUnderLineSegment) = _
    rw [qListSum_eq]
    exact getLinePath_area_sum pp
  have hccw : irregularPolygonArea (getLinePath pp) WindingOrder.CCW
      = -(windingSum pp / 2) := by
    show -qListSum ((getLinePath pp).map areaUnderLineSegment) = _
    rw [qListSum_eq, getLinePath_area_sum pp]
  have hcl : irregularPolygonArea (getLinePath pp) WindingOrder.COLINEAR
      = 0 := rfl
  have harea : getPolygonArea nodes polygon
      = irregularPolygonArea (getLinePath pp) (determineWindingOrder pp) := rfl
  rw [harea, determineWindingOrder_eq]
  rcases lt_trichotomy (windingSum pp) 0 with hlt | heq | hgt
  · rw [if_neg (by linarith), if_neg (by linarith), hccw]
    refine ⟨by linarith, ?_, ?_⟩
    · intro h0
      linarith
    · intro h0
      exact absurd h0 (by simp)
  · rw [if_pos heq, hcl]
    simp
  · rw [if_neg (by linarith), if_pos hgt, hcw]
    refine ⟨by linarith, ?_, ?_⟩
    · intro h0
      linarith
    · intro h0
      exact absurd h0 (by simp)

/-! ### Validator lemmas -/

/-- The position loop only ever reports the two position errors. -/
theorem posLoop_mem (seen : List Pt) (rest : List Pt) (e : DiscoveryErrorCode)
    (h : posLoop seen rest = some e) :
    e = DiscoveryErrorCode.VERTICES_HAVE_SAME_POSITION ∨
    e = DiscoveryErrorCode.INVALID_COORDINATE_SYSTEM := by
  induction rest generalizing seen with
  | nil => simp [posLoop] at h
  | cons p ps ih =>
    rw [posLoop] at h
    split_ifs at h with h1 h2
    · exact Or.inl (Option.some_injective _ h).symm
    · exact Or.inr (Option.some_injective _ h).symm
    · exact ih _ h

/-- The source's edge loop (duplicate check first) agrees with the claimed
precedence (out-of-bounds check first) whenever every already-seen key is
in bounds — which holds at every reachable state, because an out-of-bounds
edge aborts the loop at its own index. -/
theorem edgeLoop_eq_spec (M : ℤ) (rest seen : List InputEdge)
    (hseen : ∀ e ∈ seen, edgeInBounds M e) :
    edgeLoop M seen rest = edgeLoopSpec M seen rest := by
  induction rest generalizing seen with
  | nil => rfl
  | cons e es ih =>
    rw [edgeLoop, edgeLoopSpec]
    by_cases hmem : e ∈ seen
    · have hb := hseen e hmem
      rw [if_pos hmem, if_neg hb, if_pos hmem]
    · rw [if_neg hmem]
      by_cases hoob : e.1 < 0 ∨ e.1 > M ∨ e.2 < 0 ∨ e.2 > M
      · rw [if_pos hoob, if_pos hoob]
      · rw [if_neg hoob, if_neg hoob, if_neg hmem]
        refine ih (seen ++ [e]) ?_
        intro x hx
        rcases List.mem_append.mp hx with hx1 | hx2
        · exact hseen x hx1
        · rw [List.mem_singleton.mp hx2]
          exact hoob

/-- The two validators agree on every input. -/
theorem validateInputs_eq_specValidate (positions : List Pt)
    (edges : List InputEdge) :
    validateInputs positions edges = specValidate positions edges := by
  rw [validateInputs, specValidate]
  split_ifs
  · rfl
  · cases posLoop [] positions with
    | some e => rfl
    | none =>
      exact edgeLoop_eq_spec _ edges [] (by intro x hx; simp at hx)

/-- C3: whenever the reference validator implementing the claimed
precedence (emptiness, then positions in index order with same-position
before invalid-coordinate, then edges in index order with out-of-bounds
before duplicate) determines an error code, `discover` returns exactly that
error value, untouched store included. -/
theorem validator_precedence (s : Store) (fuel : ℕ) (positions : List Pt)
    (edges : List InputEdge) (e : DiscoveryErrorCode)
    (h : specValidate positions edges = some e) :
    discover s positions edges fuel = .ok (.error e, s) := by
  rw [discover, validateInputs_eq_specValidate, h]

/-- C3 witness: an input on which the duplicate-position, negative
coordinate, out-of-bounds-edge and duplicate-edge conditions all hold is
rejected with `VERTICES_HAVE_SAME_POSITION`, which the scan meets first. -/
theorem validator_precedence_witness :
    specValidate [((2 : ℚ), (3 : ℚ)), ((2 : ℚ), (3 : ℚ)), ((-1 : ℚ), (4 : ℚ))]
        [((9 : ℤ), (9 : ℤ)), ((9 : ℤ), (9 : ℤ))]
      = some DiscoveryErrorCode.VERTICES_HAVE_SAME_POSITION ∧
    discover [] [((2 : ℚ), (3 : ℚ)), ((2 : ℚ), (3 : ℚ)), ((-1 : ℚ), (4 : ℚ))]
        [((9 : ℤ), (9 : ℤ)), ((9 : ℤ), (9 : ℤ))] 7
      = .ok (.error DiscoveryErrorCode.VERTICES_HAVE_SAME_POSITION, []) :=
  ⟨by decide, validator_precedence [] 7 _ _ _ (by decide)⟩

/-- The edge loop reports a duplicate only when the scanned edges really
contain a repeated ordered pair. -/
theorem edgeLoop_dup_implies_not_nodup (M : ℤ) (rest seen : List InputEdge)
    (hnd : (seen ++ rest).Nodup) :
    edgeLoop M seen rest ≠ some DiscoveryErrorCode.DUPLICATE_EDGE_FOUND := by
  induction rest generalizing seen with
  | nil => simp [edgeLoop]
  | cons e es ih =>
    rw [edgeLoop]
    by_cases hmem : e ∈ seen
    · exfalso
      rcases List.nodup_append.mp hnd with ⟨-, -, hdisj⟩
      exact hdisj hmem (List.mem_cons_self e es)
    · rw [if_neg hmem]
      split_ifs with hoob
      · simp
      · have : ((seen ++ [e]) ++ es).Nodup := by
          rw [List.append_assoc]
          exact hnd
        exact ih (seen ++ [e]) this

/-- C7: an edge list containing both orientations of an undirected edge but
no repeated ordered pair is never rejected with `DUPLICATE_EDGE_FOUND`:
duplicate detection keys on the ordered pair. -/
theorem validator_reversed_edges_not_duplicate (positions : List Pt)
    (edges : List InputEdge) (a b : ℤ)
    (h1 : (a, b) ∈ edges) (h2 : (b, a) ∈ edges) (h3 : edges.Nodup) :
    validateInputs positions edges
      ≠ some DiscoveryErrorCode.DUPLICATE_EDGE_FOUND := by
  rw [validateInputs]
  split_ifs
  · simp
  · cases hp : posLoop [] positions with
    | some e =>
      intro hcon
      rcases posLoop_mem [] positions e hp with h | h <;>
        simp [h] at hcon
    | none =>
      exact edgeLoop_dup_implies_not_nodup _ edges [] (by simpa using h3)

/-! ### Area-tree lemmas -/

theorem wcInvList_append (l1 l2 : List ATChild) :
    wcInvList (l1 ++ l2) = (wcInvList l1 && wcInvList l2) := by
  induction l1 with
  | nil => simp [wcInvList]
  | cons c cs ih =>
    rw [List.cons_append, wcInvList, wcInvList, ih, Bool.and_assoc]

theorem sumTotals_append (l1 l2 : List ATChild) :
    sumTotals (l1 ++ l2) = sumTotals l1 + sumTotals l2 := by
  induction l1 with
  | nil => simp [sumTotals]
  | cons c cs ih =>
    rw [List.cons_append, sumTotals, sumTotals, ih, qAdd_eq, qAdd_eq]
    ring

theorem pushChild_isRoot (t : ATree) (c : ATChild) :
    (t.pushChild c).isRoot = t.isRoot := by
  cases t with
  | root ch => rfl
  | child pc => cases pc; rfl

theorem pushChild_totalOf (t : ATree) (c : ATChild) :
    (t.pushChild c).totalOf = t.totalOf := by
  cases t with
  | root ch => rfl
  | child pc => cases pc; rfl

theorem decrementWC_isRoot (t : ATree) (a : ℚ) :
    (t.decrementWC a).isRoot = t.isRoot := by
  cases t with
  | root ch => rfl
  | child pc => cases pc; rfl

theorem decrementWC_totalOf (t : ATree) (a : ℚ) :
    (t.decrementWC a).totalOf = t.totalOf := by
  cases t with
  | root ch => rfl
  | child pc => cases pc; rfl

/-- Unfolding equation for the successor-fuel case of `traverseAreas`,
with the in-place recursion named via `travRes`. -/
theorem traverseAreas_succ (nodes : List Pt) (f : ℕ) (polys : List Polygon)
    (parent : ATree) (i : ℕ) :
    traverseAreas nodes (f + 1) polys parent i =
      if i < polys.length then
        if (polyAt polys i).visited then
          traverseAreas nodes f polys parent (i + 1)
        else if travAdoptCond nodes polys parent i then
          traverseAreas nodes f (travRes nodes f polys i).1
            ((parent.pushChild (childOr (newChildAt polys i)
              (travRes nodes f polys i).2)).decrementWC
              (polyAt polys i).area) (i + 1)
        else traverseAreas nodes f polys parent (i + 1)
      else (polys, parent) := rfl

/-- `traverseAreas` returns the node it was seeded with: constructor and
`total` are untouched (only `withoutChildren` and `children` evolve). -/
theorem traverseAreas_shape (nodes : List Pt) :
    ∀ (fuel : ℕ) (polys : List Polygon) (parent : ATree) (i : ℕ),
    (traverseAreas nodes fuel polys parent i).2.isRoot = parent.isRoot ∧
    (traverseAreas nodes fuel polys parent i).2.totalOf = parent.totalOf := by
  intro fuel
  induction fuel with
  | zero => intro polys parent i; exact ⟨rfl, rfl⟩
  | succ f ih =>
    intro polys parent i
    rw [traverseAreas_succ]
    split_ifs with h1 h2 h3
    · exact ih _ _ _
    · constructor
      · rw [(ih _ _ _).1, decrementWC_isRoot, pushChild_isRoot]
      · rw [(ih _ _ _).2, decrementWC_totalOf, pushChild_totalOf]
    · exact ih _ _ _
    · exact ⟨rfl, rfl⟩

/-- The `wcInv` invariant is preserved by `traverseAreas`: every CHILD is
created with `withoutChildren = total`, and appending a child to a CHILD
parent decrements the parent's `withoutChildren` by exactly that child's
`total`. -/
theorem traverseAreas_wcInv (nodes : List Pt) :
    ∀ (fuel : ℕ) (polys : List Polygon) (parent : ATree) (i : ℕ),
    atreeWcInv parent = true →
    atreeWcInv (traverseAreas nodes fuel polys parent i).2 = true := by
  intro fuel
  induction fuel with
  | zero => intro polys parent i hp; exact hp
  | succ f ih =>
    intro polys parent i hp
    rw [traverseAreas_succ]
    split_ifs with h1 h2 h3
    · exact ih _ _ _ hp
    · have hnewInv : wcInv (newChildAt polys i) = true := by
        rw [newChildAt, wcInv]
        simp [sumTotals, wcInvList, qSub_eq]
      have hresInv : atreeWcInv (travRes nodes f polys i).2 = true := by
        rw [travRes]
        split_ifs with h4
        · exact ih _ _ _ (by rw [atreeWcInv]; exact hnewInv)
        · exact hnewInv
      have hresTotal : (travRes nodes f polys i).2.totalOf
          = some (polyAt polys i).area := by
        rw [travRes]
        split_ifs with h4
        · rw [(traverseAreas_shape nodes f _ _ _).2]
          rfl
        · rfl
      have hfcInv : wcInv (childOr (newChildAt polys i)
          (travRes nodes f polys i).2) = true := by
        cases hr : (travRes nodes f polys i).2 with
        | root ch => exact hnewInv
        | child c => rw [hr] at hresInv; exact hresInv
      have hfcTotal : (childOr (newChildAt polys i)
          (travRes nodes f polys i).2).total = (polyAt polys i).area := by
        cases hr : (travRes nodes f polys i).2 with
        | root ch =>
          rw [hr] at hresTotal
          exact absurd hresTotal (by simp [ATree.totalOf])
        | child c =>
          rw [hr] at hresTotal
          rw [ATree.totalOf] at hresTotal
          rw [childOr]
          exact Option.some_injective _ hresTotal
      refine ih _ _ _ ?_
      cases parent with
      | root ch =>
        rw [atreeWcInv] at hp
        show wcInvList (ch ++ [childOr (newChildAt polys i)
          (travRes nodes f polys i).2]) = true
        rw [wcInvList_append]
        simp [hp, wcInvList, hfcInv]
      | child pc =>
        cases pc with
        | mk j t w pg ch =>
          rw [atreeWcInv, wcInv, Bool.and_eq_true, decide_eq_true_iff] at hp
          show atreeWcInv (.child (.mk j t (qSub w ((polyAt polys i).area)) pg
            (ch ++ [childOr (newChildAt polys i)
              (travRes nodes f polys i).2]))) = true
          rw [atreeWcInv, wcInv, Bool.and_eq_true, decide_eq_true_iff]
          constructor
          · rw [sumTotals_append, sumTotals, sumTotals, hfcTotal, hp.1]
            simp only [qSub_eq, qAdd_eq]
            ring
          · rw [wcInvList_append]
            simp [hp.2, wcInvList, hfcInv]
    · exact ih _ _ _ hp
    · exact hp

/-- C6: in every tree `getAreaTree` returns, every CHILD's
`withoutChildren` is its `total` minus the sum of its direct children's
`total`s. -/
theorem getAreaTree_withoutChildren_invariant (nodes : List Pt)
    (edges : List InputEdge) (fuel : ℕ) (t : ATree)
    (h : getAreaTree nodes edges fuel = .ok t) :
    atreeWcInv t = true := by
  rw [getAreaTree] at h
  cases hd : discover [] nodes edges fuel with
  | error e => rw [hd] at h; exact absurd h (by simp)
  | ok pr =>
    rw [hd] at h
    cases pr with
    | mk outcome store =>
      cases outcome with
      | error reason => exact absurd h (by simp)
      | result forest =>
        simp only [Except.ok.injEq] at h
        rw [← h, buildNestingTree]
        exact traverseAreas_wcInv nodes _ _ _ _ rfl

/-! ### Store accessor lemmas -/

theorem setV_length (s : Store) (h : ℕ) (w : Vertex) :
    (setV s h w).length = s.length := List.length_set s h w

theorem getV_setV_self (s : Store) (h : ℕ) (w : Vertex) (hlt : h < s.length) :
    getV (setV s h w) h = w := by
  rw [getV, setV, List.getD_eq_getElem?_getD, List.getElem?_set_self hlt]
  rfl

theorem getV_setV_ne (s : Store) (h : ℕ) (w : Vertex) (x : ℕ) (hx : h ≠ x) :
    getV (setV s h w) x = getV s x := by
  rw [getV, setV, List.getD_eq_getElem?_getD, List.getElem?_set_ne hx,
    ← List.getD_eq_getElem?_getD]
  rfl

theorem getV_append_left (s t : Store) (x : ℕ) (hx : x < s.length) :
    getV (s ++ t) x = getV s x := by
  rw [getV, getV, List.getD_eq_getElem?_getD, List.getD_eq_getElem?_getD,
    List.getElem?_append_left hx]

theorem adjacent_setVisited (s : Store) (h m x : ℕ) :
    (getV (setVisited s h m) x).adjacent = (getV s x).adjacent := by
  rw [setVisited]
  by_cases hlt : h < s.length
  · by_cases hx : h = x
    · subst hx
      rw [getV_setV_self _ _ _ hlt]
    · rw [getV_setV_ne _ _ _ _ hx]
  · rw [setV, List.set_eq_of_length_le (le_of_not_lt hlt)]

theorem length_setVisited (s : Store) (h m : ℕ) :
    (setVisited s h m).length = s.length := setV_length ..

theorem length_adjAdd (s : Store) (a b : ℕ) :
    (adjAdd s a b).length = s.length := by
  rw [adjAdd]
  split_ifs
  · rfl
  · exact setV_length ..

theorem length_adjDel (s : Store) (a b : ℕ) :
    (adjDel s a b).length = s.length := setV_length ..

theorem getV_adjAdd_ne (s : Store) (a b x : ℕ) (hx : a ≠ x) :
    getV (adjAdd s a b) x = getV s x := by
  rw [adjAdd]
  split_ifs
  · rfl
  · exact getV_setV_ne _ _ _ _ hx

theorem getV_adjDel_ne (s : Store) (a b x : ℕ) (hx : a ≠ x) :
    getV (adjDel s a b) x = getV s x := getV_setV_ne _ _ _ _ hx

theorem foldl_preserves {α β : Type} {P : α → Prop} (f : α → β → α)
    (hstep : ∀ a b, P a → P (f a b)) :
    ∀ (l : List β) (a : α), P a → P (l.foldl f a)
  | [], _, ha => ha
  | b :: l, a, ha => foldl_preserves f hstep l (f a b) (hstep a b ha)

theorem lookup_mem {β : Type} (a : ℕ) (b : β) :
    ∀ l : List (ℕ × β), List.lookup a l = some b → (a, b) ∈ l
  | [], h => by simp [List.lookup] at h
  | (k, w) :: l, h => by
    rw [List.lookup] at h
    by_cases hak : a = k
    · have hb : (a == k) = true := beq_iff_eq.mpr hak
      rw [hb] at h
      have h' : some w = some b := h
      cases h'
      subst hak
      exact List.mem_cons_self _ _
    · have hb : (a == k) = false := beq_eq_false_iff_ne.mpr hak
      rw [hb] at h
      exact List.mem_cons_of_mem _ (lookup_mem a b l h)

theorem bvStep_inv (positions : List Pt) (s0 : Store)
    (st : Store × List (ℕ × ℕ)) (name : ℕ)
    (hst : (∃ t, st.1 = s0 ++ t) ∧ ∀ p ∈ st.2, s0.length ≤ p.2) :
    (∃ t, (bvStep positions st name).1 = s0 ++ t) ∧
    ∀ p ∈ (bvStep positions st name).2, s0.length ≤ p.2 := by
  obtain ⟨⟨t0, ht0⟩, hmap⟩ := hst
  have hlen : s0.length ≤ st.1.length := by rw [ht0]; simp
  rcases h1 : List.lookup name st.2 with _ | w1 <;> rw [bvStep, h1]
  · refine ⟨⟨t0 ++ [⟨name, positions.getD name (0, 0), [], 0⟩],
        by rw [ht0]; simp⟩, ?_⟩
    intro p hp
    rcases List.mem_append.mp hp with hp | hp
    · exact hmap p hp
    · simp only [List.mem_singleton] at hp
      rw [hp]
      exact hlen
  · exact ⟨⟨t0, ht0⟩, hmap⟩

/-- `buildVertices` only appends records, and every handle it records in the
name map is at least the length of the starting store. -/
theorem buildVertices_inv (positions : List Pt) (edges : List InputEdge)
    (s0 : Store) :
    (∃ t, (buildVertices positions edges s0).1 = s0 ++ t) ∧
    ∀ p ∈ (buildVertices positions edges s0).2, s0.length ≤ p.2 := by
  rw [buildVertices]
  refine @foldl_preserves _ _
    (fun (st : Store × List (ℕ × ℕ)) =>
      (∃ t, st.1 = s0 ++ t) ∧ ∀ p ∈ st.2, s0.length ≤ p.2)
    _ ?_ edges (s0, []) ⟨⟨[], by simp⟩, by simp⟩
  intro st e hst
  exact bvStep_inv _ _ _ _ (bvStep_inv _ _ _ _ hst)

theorem addEdges_length (edges : List InputEdge) (uniq : List (ℕ × ℕ))
    (s : Store) : (addEdges edges uniq s).length = s.length := by
  rw [addEdges]
  refine @foldl_preserves _ _ (fun t => t.length = s.length) _ ?_ edges s rfl
  intro t e ht
  dsimp only
  rcases List.lookup e.1.toNat uniq with _ | h0 <;>
    rcases List.lookup e.2.toNat uniq with _ | h1 <;>
    simp only [length_adjAdd, ht]

theorem getV_addEdges_lt (edges : List InputEdge) (uniq : List (ℕ × ℕ))
    (s : Store) (k x : ℕ) (hu : ∀ p ∈ uniq, k ≤ p.2) (hx : x < k) :
    getV (addEdges edges uniq s) x = getV s x := by
  rw [addEdges]
  refine @foldl_preserves _ _ (fun t => getV t x = getV s x) _ ?_ edges s rfl
  intro t e ht
  dsimp only
  rcases h1 : List.lookup e.1.toNat uniq with _ | h0 <;>
    rcases h2 : List.lookup e.2.toNat uniq with _ | hb <;> try exact ht
  have hb2 : k ≤ hb := hu _ (lookup_mem _ _ _ h2)
  have hb0 : k ≤ h0 := hu _ (lookup_mem _ _ _ h1)
  rw [getV_adjAdd_ne _ _ _ _ (by omega), getV_adjAdd_ne _ _ _ _ (by omega)]
  exact ht

/-- `dfsLoop` only sets visited marks: adjacency lists and the store length
are untouched. -/
theorem dfsLoop_frame (fuel : ℕ) :
    ∀ (s : Store) (stack comp : List ℕ) (s' : Store) (c : List ℕ),
    dfsLoop fuel s stack comp = .ok (s', c) →
    (∀ x, (getV s' x).adjacent = (getV s x).adjacent) ∧
    s'.length = s.length := by
  induction fuel with
  | zero =>
    intro s stack comp s' c h
    exact Except.noConfusion h
  | succ f ih =>
    intro s stack comp s' c h
    cases stack with
    | nil =>
      have h' : Except.ok (ε := RunError) (s, comp) = .ok (s', c) := h
      simp only [Except.ok.injEq, Prod.mk.injEq] at h'
      rw [← h'.1]
      exact ⟨fun x => rfl, rfl⟩
    | cons top rest =>
      replace h : (match (getV (setVisited s top 1) top).adjacent.find?
          (fun a => decide ((getV (setVisited s top 1) a).visited = 0)) with
        | some a => dfsLoop f (setVisited s top 1) (a :: top :: rest) comp
        | none => dfsLoop f (setVisited (setVisited s top 1) top 2) rest
            (comp ++ [top])) = .ok (s', c) := h
      rcases hf : (getV (setVisited s top 1) top).adjacent.find?
          (fun a => decide ((getV (setVisited s top 1) a).visited = 0))
          with _ | a <;> rw [hf] at h
      · have hrec := ih _ _ _ _ _ h
        refine ⟨fun x => ?_, ?_⟩
        · rw [hrec.1 x, adjacent_setVisited, adjacent_setVisited]
        · rw [hrec.2, length_setVisited, length_setVisited]
      · have hrec := ih _ _ _ _ _ h
        refine ⟨fun x => ?_, ?_⟩
        · rw [hrec.1 x, adjacent_setVisited]
        · rw [hrec.2, length_setVisited]

/-- `componentsLoop` appends to the component list and (through its DFS
calls) leaves every adjacency list and the store length unchanged. -/
theorem componentsLoop_frame (fuel : ℕ) :
    ∀ (l : List ℕ) (s : Store) (comps : List (List ℕ)) (s3 : Store)
    (cs : List (List ℕ)),
    componentsLoop fuel l s comps = .ok (s3, cs) →
    (∃ more, cs = comps ++ more) ∧
    (∀ x, (getV s3 x).adjacent = (getV s x).adjacent) ∧
    s3.length = s.length := by
  intro l
  induction l with
  | nil =>
    intro s comps s3 cs h
    have h' : Except.ok (ε := RunError) (s, comps) = .ok (s3, cs) := h
    simp only [Except.ok.injEq, Prod.mk.injEq] at h'
    rw [← h'.1, ← h'.2]
    exact ⟨⟨[], by simp⟩, fun x => rfl, rfl⟩
  | cons hd tl ih =>
    intro s comps s3 cs h
    rw [componentsLoop] at h
    split_ifs at h
    · rcases hd2 : depthFirstSearch fuel s hd with e | pr <;> rw [hd2] at h
      · exact absurd h (by simp)
      · obtain ⟨⟨more, hmore⟩, hadj, hlen⟩ := ih _ _ _ _ h
        have hdfs := dfsLoop_frame fuel _ _ _ _ _ hd2
        refine ⟨⟨[pr.2] ++ more, by rw [hmore, List.append_assoc]⟩,
          fun x => ?_, ?_⟩
        · rw [hadj x, hdfs.1 x]
        · rw [hlen, hdfs.2]
    · exact ih _ _ _ _ h

/-- A depth-first search from a vertex with no neighbours either runs out
of fuel or returns the singleton component, changing only visited marks. -/
theorem dfs_isolated (fuel : ℕ) (s : Store) (h0 : ℕ)
    (hadj : (getV s h0).adjacent = []) :
    depthFirstSearch fuel s h0 = .error RunError.fuelOut ∨
    ∃ s', depthFirstSearch fuel s h0 = .ok (s', [h0]) := by
  match fuel with
  | 0 => exact .inl rfl
  | 1 =>
    left
    rw [depthFirstSearch, dfsLoop]
    have heq : (getV (setVisited s h0 1) h0).adjacent = [] := by
      rw [adjacent_setVisited]
      exact hadj
    rw [heq]
    rfl
  | f + 2 =>
    right
    refine ⟨setVisited (setVisited s h0 1) h0 2, ?_⟩
    rw [depthFirstSearch, dfsLoop]
    have heq : (getV (setVisited s h0 1) h0).adjacent = [] := by
      rw [adjacent_setVisited]
      exact hadj
    rw [heq]
    rw [show ([] : List ℕ).find?
      (fun a => decide ((getV (setVisited s h0 1) a).visited = 0)) = none
      from rfl]
    rw [dfsLoop]
    rfl

/-- `removeFilaments` does nothing to a singleton component whose vertex
has no neighbours: there is no degree-1 endpoint to start a strip from. -/
theorem removeFilaments_isolated (s : Store) (h0 : ℕ)
    (hadj : (getV s h0).adjacent = []) :
    removeFilaments s [h0] = (s, [h0]) := by
  rw [removeFilaments]
  have hdeg : deg s h0 = 0 := by rw [deg, hadj]; rfl
  have hf : [h0].filter (fun v => decide (deg s v = 1)) = [] := by
    simp [List.filter, hdeg]
  rw [hf]
  simp

/-- `extractBasis` on a singleton component with no neighbours cannot
return: the closed-walk construction dereferences the `null` result of
`getClockwiseMost` (or the fuel runs out first). -/
theorem extractBasis_isolated (fuel : ℕ) (s : Store) (h0 : ℕ)
    (hadj : (getV s h0).adjacent = []) :
    ∃ e, extractBasis fuel s [h0] = .error e := by
  match fuel with
  | 0 => exact ⟨_, rfl⟩
  | 1 => exact ⟨_, rfl⟩
  | f + 2 =>
    rw [extractBasis, basisLoop]
    rw [if_neg (by simp), removeFilaments_isolated s h0 hadj]
    rw [if_neg (by simp)]
    have hmin : findMinVertex s [h0] = h0 := by
      rw [findMinVertex]
      simp only [List.headD_cons, List.foldl_cons, List.foldl_nil, ite_self]
    match f with
    | 0 => exact ⟨_, rfl⟩
    | g + 1 =>
      rw [extractCycleFromComponent, hmin]
      have hcw : getClockwiseMost s none h0 = none := by
        rw [getClockwiseMost]
        rw [hadj]
        rfl
      rw [buildClosedWalk, hcw]
      match g with
      | 0 => exact ⟨_, rfl⟩
      | h + 1 =>
        rw [walkLoop]
        exact ⟨_, rfl⟩

theorem getV_visited_reset (s : Store) (x : ℕ) :
    (getV (s.map (fun w => { w with visited := 0 })) x).adjacent
      = (getV s x).adjacent := by
  by_cases hx : x < s.length
  · rw [getV, getV, List.getD_eq_getElem?_getD, List.getD_eq_getElem?_getD,
      List.getElem?_map, List.getElem?_eq_getElem hx]
    rfl
  · rw [getV, getV, List.getD_eq_getElem?_getD, List.getD_eq_getElem?_getD,
      List.getElem?_map, List.getElem?_eq_none (le_of_not_lt hx)]
    rfl

theorem getV_mem (s : Store) (h : ℕ) (hh : h < s.length) : getV s h ∈ s := by
  rw [getV, List.getD_eq_getElem?_getD, List.getElem?_eq_getElem hh]
  exact List.getElem_mem hh

theorem range_split : ∀ (n j : ℕ), j < n →
    ∃ post, List.range n = List.range j ++ j :: post := by
  intro n
  induction n with
  | zero =>
    intro j hj
    exact absurd hj (by omega)
  | succ m ih =>
    intro j hj
    by_cases hjm : j = m
    · subst hjm
      exact ⟨[], by rw [List.range_succ]⟩
    · obtain ⟨post, hpost⟩ := ih j (by omega)
      refine ⟨post ++ [m], ?_⟩
      rw [List.range_succ, hpost, List.append_assoc, List.cons_append]

/-- If the handles before `j` all carry a non-zero visited mark, they are
skipped, so the first component the loop emits is the singleton `[j]` of
the (neighbourless, unvisited) handle `j`. -/
theorem componentsLoop_stale_head (fuel : ℕ) :
    ∀ (pre : List ℕ) (j : ℕ) (post : List ℕ) (s : Store)
      (acc : List (List ℕ)) (s3 : Store) (cs : List (List ℕ)),
      (∀ k ∈ pre, (getV s k).visited ≠ 0) →
      (getV s j).adjacent = [] → (getV s j).visited = 0 →
      componentsLoop fuel (pre ++ j :: post) s acc = .ok (s3, cs) →
      ∃ more, cs = acc ++ [j] :: more := by
  intro pre
  induction pre with
  | nil =>
    intro j post s acc s3 cs _ hadjj hvisj h
    rw [List.nil_append, componentsLoop, hvisj, if_pos rfl] at h
    rcases dfs_isolated fuel s j hadjj with hdfs | ⟨sA, hdfs⟩ <;>
      rw [hdfs] at h
    · exact Except.noConfusion h
    · obtain ⟨⟨more, hmore⟩, -, -⟩ := componentsLoop_frame fuel _ _ _ _ _ h
      refine ⟨more, ?_⟩
      rw [hmore, List.append_assoc]
      rfl
  | cons k pre' ih =>
    intro j post s acc s3 cs hpre hadjj hvisj h
    rw [List.cons_append, componentsLoop,
      if_neg (hpre k (List.mem_cons_self k pre'))] at h
    exact ih j post s acc s3 cs
      (fun x hx => hpre x (List.mem_cons_of_mem k hx)) hadjj hvisj h

/-- C10 (amended): a `discover` call on an instance whose stale store
records all have empty adjacency sets — as a completed call leaves them —
and at least one of which still has visited mark `0` never returns a
value, whatever (validation-passing) input and fuel it is given: the
handles before the first unvisited stale record are skipped, that record
seeds a singleton component that survives filament pruning,
`getClockwiseMost` returns `null` on it, and the closed-walk loop
dereferences that `null` (or the fuel runs out first). -/
theorem discover_stale_unvisited_never_ok (s0 : Store)
    (positions : List Pt) (edges : List InputEdge) (fuel : ℕ)
    (out : DiscoverOutcome × Store)
    (hall : ∀ v ∈ s0, v.adjacent = [])
    (hstale : ∃ i, i < s0.length ∧ (getV s0 i).visited = 0)
    (hval : validateInputs positions edges = none) :
    discover s0 positions edges fuel ≠ .ok out := by
  intro hok
  rw [discover, hval] at hok
  dsimp only at hok
  obtain ⟨hbv1, hbv2⟩ := buildVertices_inv positions edges s0
  obtain ⟨t1, ht1⟩ := hbv1
  set bv := buildVertices positions edges s0 with hbv
  set s2 := addEdges edges bv.2 bv.1 with hs2
  have hstale_pres : ∀ k, k < s0.length → getV s2 k = getV s0 k := by
    intro k hk
    rw [hs2, getV_addEdges_lt edges bv.2 bv.1 s0.length k hbv2 hk, ht1,
      getV_append_left _ _ k hk]
  have hlen2 : s0.length ≤ s2.length := by
    rw [hs2, addEdges_length, ht1, List.length_append]
    omega
  obtain ⟨j0, ⟨hj0lt, hj0vis⟩, hj0min⟩ :
      ∃ j, (j < s0.length ∧ (getV s0 j).visited = 0) ∧
        ∀ k, k < j → ¬(k < s0.length ∧ (getV s0 k).visited = 0) :=
    ⟨Nat.find hstale, Nat.find_spec hstale,
      fun k hk => Nat.find_min hstale hk⟩
  obtain ⟨post, hsplit⟩ := range_split s2.length j0 (by omega)
  have hadjj : (getV s2 j0).adjacent = [] := by
    rw [hstale_pres j0 hj0lt]
    exact hall _ (getV_mem s0 j0 hj0lt)
  have hvisj : (getV s2 j0).visited = 0 := by
    rw [hstale_pres j0 hj0lt]
    exact hj0vis
  have hpre : ∀ k ∈ List.range j0, (getV s2 k).visited ≠ 0 := by
    intro k hk
    rw [List.mem_range] at hk
    have hk0 : k < s0.length := by omega
    rw [hstale_pres k hk0]
    intro hv0
    exact hj0min k hk ⟨hk0, hv0⟩
  rcases hcl : componentsLoop fuel (List.range s2.length) s2 [] with e | pr
  · rw [hcl] at hok
    exact Except.noConfusion hok
  · rw [hcl] at hok
    obtain ⟨s3, comps⟩ := pr
    rw [hsplit] at hcl
    obtain ⟨more, hmore⟩ :=
      componentsLoop_stale_head fuel (List.range j0) j0 post s2 [] s3 comps
        hpre hadjj hvisj hcl
    obtain ⟨-, hadj3, -⟩ := componentsLoop_frame fuel _ _ _ _ _ hcl
    subst hmore
    set s4 := s3.map (fun w => { w with visited := 0 }) with hs4
    have hadj4 : (getV s4 j0).adjacent = [] := by
      rw [hs4, getV_visited_reset, hadj3 j0]
      exact hadjj
    obtain ⟨e, heb⟩ := extractBasis_isolated fuel s4 j0 hadj4
    replace hok : (match (match extractBasis fuel s4 [j0] with
        | .error e => Except.error (ε := RunError) e
        | .ok (t, s1) => forestLoop fuel more s1 ([] ++ [t])) with
      | .error e => Except.error e
      | .ok (forest, s5) =>
          Except.ok (DiscoverOutcome.result
            (forest.filter (fun t => !t.isEmptyTree)), s5)) = .ok out := hok
    rw [heb] at hok
    exact Except.noConfusion hok

/-! ### Closedness of the emitted cycles (claim C2) -/

theorem getLast?_drop {α : Type} : ∀ (l : List α) (k : ℕ), k < l.length →
    (l.drop k).getLast? = l.getLast?
  | [], _, h => by simp at h
  | _ :: _, 0, _ => rfl
  | x :: rest, k + 1, h => by
    rw [List.drop_succ_cons, getLast?_drop rest k (by simpa using h)]
    cases rest with
    | nil => simp at h
    | cons b tl => rw [List.getLast?_cons_cons]

/-- The closed-walk loop returns its accumulator extended by some suffix
and terminated by the start vertex. -/
theorem walkLoop_closed (fuel : ℕ) : ∀ (s : Store) (vStart vCurr : ℕ)
    (vAdjOpt : Option ℕ) (acc w : List ℕ),
    walkLoop fuel s vStart vCurr vAdjOpt acc = .ok w →
    ∃ t, w = acc ++ t ++ [vStart] := by
  induction fuel with
  | zero => intro s vStart vCurr vAdjOpt acc w h; exact Except.noConfusion h
  | succ f ih =>
    intro s vStart vCurr vAdjOpt acc w h
    cases vAdjOpt with
    | none => exact Except.noConfusion h
    | some vAdj =>
      replace h : (if vAdj = vStart
          then Except.ok (ε := RunError) (acc ++ [vStart])
          else walkLoop f s vStart vAdj
            (getCounterClockwiseMost s (some vCurr) vAdj) (acc ++ [vAdj]))
          = .ok w := h
      split_ifs at h with hv
      · have h' : Except.ok (ε := RunError) (acc ++ [vStart]) = .ok w := h
        simp only [Except.ok.injEq] at h'
        exact ⟨[], by rw [← h']; simp⟩
      · obtain ⟨t, ht⟩ := ih _ _ _ _ _ _ h
        exact ⟨vAdj :: t, by rw [ht]; simp⟩

/-- The walk built by `extractCycleFromComponent` starts and ends with the
left-most vertex. -/
theorem buildClosedWalk_closed (fuel : ℕ) (s : Store) (v : ℕ) (w : List ℕ)
    (h : buildClosedWalk fuel s v = .ok w) :
    w.head? = some v ∧ w.getLast? = some v := by
  obtain ⟨t, ht⟩ :=
    walkLoop_closed fuel s v v (getClockwiseMost s none v) [v] w h
  subst ht
  exact ⟨rfl, List.getLast?_concat _⟩

/-- The self-intersection simplification never touches the first or the
last entry of the walk: every splice keeps index 0 (`take (iMin+1)` with
the list non-empty) and the last index (`drop` bounded by the loop
guard). -/
theorem simplifyWalk_head_last (fuel : ℕ) : ∀ (walk : List ℕ)
    (dups : List (ℕ × ℕ)) (dets : List ℕ) (i : ℕ),
    (simplifyWalk fuel walk dups dets i).1.head? = walk.head? ∧
    (simplifyWalk fuel walk dups dets i).1.getLast? = walk.getLast? := by
  induction fuel with
  | zero => intro walk dups dets i; exact ⟨rfl, rfl⟩
  | succ f ih =>
    intro walk dups dets i
    rw [simplifyWalk]
    split_ifs with hi
    · rcases hl : List.lookup (walk.getD i 0) dups with _ | iMin <;>
        dsimp only
      · exact ih _ _ _ _
      · by_cases hord : iMin ≤ i
        · have harith : iMin + 1 + (i - iMin) = i + 1 := by omega
          rw [harith]
          obtain ⟨h1, h2⟩ := ih (walk.take (iMin + 1) ++ walk.drop (i + 1))
            ((List.range (i - (iMin + 1))).map (fun k => iMin + 1 + k)
              |>.foldl (fun d j => d.filter
                (fun kv => decide (kv.1 ≠ walk.getD j 0))) dups)
            ((List.range (i - (iMin + 1))).map (fun k => iMin + 1 + k)
              |>.foldl (fun d j => d.erase j)
                (if iMin ∈ dets then dets else dets ++ [iMin]))
            (iMin + 1)
          refine ⟨?_, ?_⟩
          · rw [h1]
            cases hw : walk with
            | nil => subst hw; simp at hi
            | cons x rest =>
              subst hw
              rw [List.take_succ_cons]
              rfl
          · rw [h2, List.getLast?_append,
              getLast?_drop walk (i + 1) (by omega)]
            rcases hgl : walk.getLast? with _ | a
            · rw [List.getLast?_eq_none_iff] at hgl
              subst hgl
              simp at hi
            · rfl
        · have harith : iMin + 1 + (i - iMin) = iMin + 1 := by omega
          rw [harith, List.take_append_drop]
          exact ih _ _ _ _
    · exact ⟨rfl, rfl⟩

theorem forestClosed_iff : ∀ l : List CycleTree,
    forestClosed l = true ↔ ∀ t ∈ l, treeClosed t = true
  | [] => by simp [forestClosed]
  | t :: ts => by
    rw [forestClosed, Bool.and_eq_true, forestClosed_iff ts]
    constructor
    · rintro ⟨h1, h2⟩ u hu
      rcases List.mem_cons.mp hu with rfl | hu
      · exact h1
      · exact h2 u hu
    · intro h
      exact ⟨h t (List.mem_cons_self _ _),
        fun u hu => h u (List.mem_cons_of_mem _ hu)⟩

/-- The single-child unwrap rule preserves closedness. -/
theorem unwrapTree_closed (t : CycleTree) (h : treeClosed t = true) :
    treeClosed (unwrapTree t) = true := by
  cases t with
  | mk c ch =>
    rw [unwrapTree]
    split_ifs with hc
    · obtain ⟨u, hu⟩ := List.length_eq_one.mp hc.2
      subst hu
      rw [treeClosed, Bool.and_eq_true] at h
      have h2 := h.2
      rw [forestClosed, Bool.and_eq_true] at h2
      cases u with
      | mk uc uch =>
        show treeClosed (.mk uc uch) = true
        exact h2.1
    · exact h

/-- Mapping names over a handle list with equal first and last handles
yields an empty-or-closed name list. -/
theorem closedNameList (l : List ℕ) (f : ℕ → ℕ)
    (h : l.head? = l.getLast?) :
    ((l.map f).isEmpty
      || decide ((l.map f).headD 0 = (l.map f).getLastD 0)) = true := by
  cases l with
  | nil => rfl
  | cons a rest =>
    rw [Bool.or_eq_true]
    right
    rw [decide_eq_true_iff, List.headD_eq_head?_getD,
      getLastD_eq_getLast?_getD, List.head?_map, List.getLast?_map, ← h]

/-- The degenerate (walk of at most three entries) branch of
`extractCycleFromClosedWalk` produces a closed tree whenever
`extractBasis` does. -/
theorem degen_result (f : ℕ) (s2 : Store) (cloneH : ℕ) (t : CycleTree)
    (s' : Store)
    (hB : ∀ (s : Store) (comp : List ℕ) (t : CycleTree) (s' : Store),
      extractBasis f s comp = .ok (t, s') → treeClosed t = true)
    (h : (match depthFirstSearch f s2 cloneH with
      | .error e => Except.error e
      | .ok (s3, compN) =>
        match extractBasis f s3 compN with
        | .error e => Except.error e
        | .ok (child, s4) => Except.ok (unwrapTree (.mk [] [child]), s4))
      = Except.ok (t, s')) :
    treeClosed t = true := by
  rcases hdfs : depthFirstSearch f s2 cloneH with e | pr <;> rw [hdfs] at h
  · exact Except.noConfusion h
  · obtain ⟨s3, compN⟩ := pr
    replace h : (match extractBasis f s3 compN with
      | .error e => Except.error e
      | .ok (child, s4) => Except.ok (unwrapTree (.mk [] [child]), s4))
      = Except.ok (t, s') := h
    rcases hbs : extractBasis f s3 compN with e | pr2 <;> rw [hbs] at h
    · exact Except.noConfusion h
    · obtain ⟨child, s4⟩ := pr2
      have h' : Except.ok (ε := RunError) (unwrapTree (.mk [] [child]), s4)
          = .ok (t, s') := h
      simp only [Except.ok.injEq, Prod.mk.injEq] at h'
      rw [← h'.1]
      refine unwrapTree_closed _ ?_
      rw [treeClosed, Bool.and_eq_true]
      refine ⟨by simp, ?_⟩
      rw [forestClosed, Bool.and_eq_true]
      exact ⟨hB _ _ _ _ hbs, rfl⟩

/-- One step of the detachments loop preserves closedness of the
accumulated children. -/
theorem detach_cons_result (f : ℕ) (inW : List ℕ) (s2 : Store) (cloneH : ℕ)
    (s s' : Store) (walk rest : List ℕ) (acc ts : List CycleTree)
    (hB : ∀ (s : Store) (comp : List ℕ) (t : CycleTree) (s' : Store),
      extractBasis f s comp = .ok (t, s') → treeClosed t = true)
    (hDL : ∀ (s : Store) (walk dets : List ℕ) (acc ts : List CycleTree)
      (s' : Store), (∀ u ∈ acc, treeClosed u = true) →
      detachLoop f s walk dets acc = .ok (ts, s') →
      ∀ u ∈ ts, treeClosed u = true)
    (hacc : ∀ u ∈ acc, treeClosed u = true)
    (h : (if inW.length > 0 then
        (match depthFirstSearch f s2 cloneH with
         | .error e => Except.error e
         | .ok (s3, compN) =>
           match extractBasis f s3 compN with
           | .error e => Except.error e
           | .ok (child, s4) => detachLoop f s4 walk rest (acc ++ [child]))
      else detachLoop f s walk rest acc) = .ok (ts, s')) :
    ∀ u ∈ ts, treeClosed u = true := by
  split_ifs at h
  · rcases hdfs : depthFirstSearch f s2 cloneH with e | pr <;> rw [hdfs] at h
    · exact Except.noConfusion h
    · obtain ⟨s3, compN⟩ := pr
      replace h : (match extractBasis f s3 compN with
        | .error e => Except.error e
        | .ok (child, s4) => detachLoop f s4 walk rest (acc ++ [child]))
        = Except.ok (ts, s') := h
      rcases hbs : extractBasis f s3 compN with e | pr2 <;> rw [hbs] at h
      · exact Except.noConfusion h
      · obtain ⟨child, s4⟩ := pr2
        refine hDL _ _ _ _ _ _ ?_ h
        intro u hu
        rcases List.mem_append.mp hu with hu | hu
        · exact hacc u hu
        · simp only [List.mem_singleton] at hu
          subst hu
          exact hB _ _ _ _ hbs
  · exact hDL _ _ _ _ _ _ hacc h

/-- The closedness invariant through the whole mutual extraction block:
every tree any of the five functions returns has every cycle list empty
or closed. -/
theorem basisClosed (fuel : ℕ) :
    (∀ (s : Store) (comp : List ℕ) (t : CycleTree) (s' : Store),
      extractBasis fuel s comp = .ok (t, s') → treeClosed t = true) ∧
    (∀ (s : Store) (comp : List ℕ) (acc ts : List CycleTree) (s' : Store),
      (∀ u ∈ acc, treeClosed u = true) →
      basisLoop fuel s comp acc = .ok (ts, s') →
      ∀ u ∈ ts, treeClosed u = true) ∧
    (∀ (s : Store) (comp : List ℕ) (t : CycleTree) (s' : Store)
      (c' : List ℕ),
      extractCycleFromComponent fuel s comp = .ok (t, s', c') →
      treeClosed t = true) ∧
    (∀ (s : Store) (walk : List ℕ) (t : CycleTree) (s' : Store),
      walk.head? = walk.getLast? →
      extractCycleFromClosedWalk fuel s walk = .ok (t, s') →
      treeClosed t = true) ∧
    (∀ (s : Store) (walk dets : List ℕ) (acc ts : List CycleTree)
      (s' : Store), (∀ u ∈ acc, treeClosed u = true) →
      detachLoop fuel s walk dets acc = .ok (ts, s') →
      ∀ u ∈ ts, treeClosed u = true) := by
  induction fuel with
  | zero =>
    refine ⟨?_, ?_, ?_, ?_, ?_⟩
    · intro s comp t s' h; exact Except.noConfusion h
    · intro s comp acc ts s' hacc h; exact Except.noConfusion h
    · intro s comp t s' c' h; exact Except.noConfusion h
    · intro s walk t s' hc h; exact Except.noConfusion h
    · intro s walk dets acc ts s' hacc h; exact Except.noConfusion h
  | succ f ih =>
    obtain ⟨ihB, ihBL, ihECC, ihECW, ihDL⟩ := ih
    refine ⟨?_, ?_, ?_, ?_, ?_⟩
    · -- extractBasis
      intro s comp t s' h
      rw [extractBasis] at h
      rcases hb : basisLoop f s comp [] with e | pr <;> rw [hb] at h
      · exact Except.noConfusion h
      · obtain ⟨children, s1⟩ := pr
        have h' : Except.ok (ε := RunError)
            (unwrapTree (.mk [] children), s1) = .ok (t, s') := h
        simp only [Except.ok.injEq, Prod.mk.injEq] at h'
        rw [← h'.1]
        refine unwrapTree_closed _ ?_
        rw [treeClosed, Bool.and_eq_true]
        refine ⟨by simp, ?_⟩
        rw [forestClosed_iff]
        exact ihBL s comp [] children s1 (by simp) hb
    · -- basisLoop
      intro s comp acc ts s' hacc h
      rw [basisLoop] at h
      dsimp only at h
      split_ifs at h with h0 h1
      · have h' : Except.ok (ε := RunError) (acc, s) = .ok (ts, s') := h
        simp only [Except.ok.injEq, Prod.mk.injEq] at h'
        rw [← h'.1]
        exact hacc
      · have h' : Except.ok (ε := RunError) (acc, (removeFilaments s comp).1)
            = .ok (ts, s') := h
        simp only [Except.ok.injEq, Prod.mk.injEq] at h'
        rw [← h'.1]
        exact hacc
      · rcases hec : extractCycleFromComponent f (removeFilaments s comp).1
            (removeFilaments s comp).2 with e | pr <;> rw [hec] at h
        · exact Except.noConfusion h
        · obtain ⟨t2, s2, comp2⟩ := pr
          refine ihBL _ _ _ _ _ ?_ h
          intro u hu
          rcases List.mem_append.mp hu with hu | hu
          · exact hacc u hu
          · simp only [List.mem_singleton] at hu
            subst hu
            exact ihECC _ _ _ _ _ hec
    · -- extractCycleFromComponent
      intro s comp t s' c' h
      rw [extractCycleFromComponent] at h
      rcases hw : buildClosedWalk f s (findMinVertex s comp) with e | walk <;>
        rw [hw] at h
      · exact Except.noConfusion h
      · replace h : (match extractCycleFromClosedWalk f s walk with
          | .error e => Except.error e
          | .ok (t2, s1) => Except.ok (t2, s1,
              comp.filter (fun v => decide (0 < deg s1 v))))
          = Except.ok (t, s', c') := h
        rcases hec : extractCycleFromClosedWalk f s walk with e | pr <;>
          rw [hec] at h
        · exact Except.noConfusion h
        · obtain ⟨t2, s1⟩ := pr
          have h' : Except.ok (ε := RunError)
              (t2, s1, comp.filter (fun v => decide (0 < deg s1 v)))
              = .ok (t, s', c') := h
          simp only [Except.ok.injEq, Prod.mk.injEq] at h'
          rw [← h'.1]
          obtain ⟨hh2, hl2⟩ := buildClosedWalk_closed f s _ walk hw
          exact ihECW _ _ _ _ (by rw [hh2, hl2]) hec
    · -- extractCycleFromClosedWalk
      intro s walk t s' hclosed h
      rw [extractCycleFromClosedWalk] at h
      dsimp only at h
      split_ifs at h with hlen
      · rcases hdl : detachLoop f s (simplifyWalkT walk).1
            ((simplifyWalkT walk).2 ++ [0]) [] with e | pr <;> rw [hdl] at h
        · exact Except.noConfusion h
        · obtain ⟨children, s1⟩ := pr
          have h' : Except.ok (ε := RunError)
              (CycleTree.mk (extractCycle s1 (simplifyWalkT walk).1).1
                children,
               (extractCycle s1 (simplifyWalkT walk).1).2) = .ok (t, s') := h
          simp only [Except.ok.injEq, Prod.mk.injEq] at h'
          rw [← h'.1, treeClosed, Bool.and_eq_true]
          constructor
          · have hcy : (extractCycle s1 (simplifyWalkT walk).1).1
                = (simplifyWalkT walk).1.map (fun x => (getV s1 x).name) :=
              rfl
            rw [hcy]
            refine closedNameList _ _ ?_
            obtain ⟨hh, hl⟩ := simplifyWalk_head_last
              ((walk.length + 1) * (walk.length + 1)) walk [] [] 1
            rw [show simplifyWalkT walk = simplifyWalk
              ((walk.length + 1) * (walk.length + 1)) walk [] [] 1 from rfl,
              hh, hl]
            exact hclosed
          · rw [forestClosed_iff]
            exact ihDL s (simplifyWalkT walk).1 ((simplifyWalkT walk).2 ++ [0])
              [] children s1 (by simp) hdl
      · exact degen_result f _ _ _ _ ihB h
    · -- detachLoop
      intro s walk dets acc ts s' hacc h
      cases dets with
      | nil =>
        have h' : Except.ok (ε := RunError) (acc, s) = .ok (ts, s') := h
        simp only [Except.ok.injEq, Prod.mk.injEq] at h'
        rw [← h'.1]
        exact hacc
      | cons i rest =>
        rw [detachLoop] at h
        dsimp only at h
        exact detach_cons_result f _ _ _ _ _ _ _ _ _ ihB ihDL hacc h

/-- `forestLoop` pushes one `extractBasis` tree per component, so the
whole forest is closed. -/
theorem forestLoop_closed (fuel : ℕ) : ∀ (comps : List (List ℕ))
    (s : Store) (acc ts : List CycleTree) (s' : Store),
    (∀ u ∈ acc, treeClosed u = true) →
    forestLoop fuel comps s acc = .ok (ts, s') →
    ∀ u ∈ ts, treeClosed u = true := by
  intro comps
  induction comps with
  | nil =>
    intro s acc ts s' hacc h
    have h' : Except.ok (ε := RunError) (acc, s) = .ok (ts, s') := h
    simp only [Except.ok.injEq, Prod.mk.injEq] at h'
    rw [← h'.1]
    exact hacc
  | cons c cs ih =>
    intro s acc ts s' hacc h
    rw [forestLoop] at h
    rcases hb : extractBasis fuel s c with e | pr <;> rw [hb] at h
    · exact Except.noConfusion h
    · obtain ⟨t2, s1⟩ := pr
      refine ih _ _ _ _ ?_ h
      intro u hu
      rcases List.mem_append.mp hu with hu | hu
      · exact hacc u hu
      · simp only [List.mem_singleton] at hu
        subst hu
        exact (basisClosed fuel).1 _ _ _ _ hb

/-- C2: every cycle list in every tree of the forest `discover` returns
is empty or closed: its first name equals its last name. -/
theorem discover_cycles_closed (s0 : Store) (positions : List Pt)
    (edges : List InputEdge) (fuel : ℕ) (forest : List CycleTree)
    (s' : Store)
    (h : discover s0 positions edges fuel = .ok (.result forest, s')) :
    forestClosed forest = true := by
  rw [discover] at h
  rcases hv : validateInputs positions edges with _ | e <;> rw [hv] at h
  · dsimp only at h
    set s2 := addEdges edges (buildVertices positions edges s0).2
      (buildVertices positions edges s0).1 with hs2
    rcases hcl : componentsLoop fuel (List.range s2.length) s2 []
        with e | pr <;> rw [hcl] at h
    · exact Except.noConfusion h
    · obtain ⟨s3, comps⟩ := pr
      dsimp only at h
      rcases hfl : forestLoop fuel comps
          (s3.map (fun v => { v with visited := 0 })) [] with e | pr2 <;>
        rw [hfl] at h
      · exact Except.noConfusion h
      · obtain ⟨f2, s5⟩ := pr2
        have h' : Except.ok (ε := RunError)
            (DiscoverOutcome.result (f2.filter (fun t => !t.isEmptyTree)), s5)
            = .ok (.result forest, s') := h
        simp only [Except.ok.injEq, Prod.mk.injEq] at h'
        injection h'.1 with hf
        rw [← hf, forestClosed_iff]
        intro u hu
        exact forestLoop_closed fuel _ _ _ _ _ (by simp) hfl u
          (List.mem_of_mem_filter hu)
  · have h' : Except.ok (ε := RunError) (DiscoverOutcome.error e, s0)
        = .ok (.result forest, s') := h
    simp only [Except.ok.injEq, Prod.mk.injEq] at h'
    exact absurd h'.1 (by intro hh; cases hh)

/-! ### C4: the filament pruner's postcondition -/

theorem deg_eq_zero_of_le (s : Store) (h : ℕ) (hle : s.length ≤ h) :
    deg s h = 0 := by
  rw [deg, getV, List.getD_eq_getElem?_getD, List.getElem?_eq_none hle]
  rfl

theorem lt_length_of_deg_pos (s : Store) (h : ℕ) (hd : 0 < deg s h) :
    h < s.length := by
  by_contra hc
  rw [deg_eq_zero_of_le s h (le_of_not_lt hc)] at hd
  exact Nat.lt_irrefl 0 hd

theorem sum_set_nat : ∀ (l : List ℕ) (i a : ℕ), i < l.length →
    (l.set i a).sum + l.getD i 0 = l.sum + a
  | [], _, _, h => absurd h (by simp)
  | x :: l, 0, a, _ => by
    simp only [List.set_cons_zero, List.sum_cons, List.getD_cons_zero]
    omega
  | x :: l, i + 1, a, h => by
    simp only [List.set_cons_succ, List.sum_cons, List.getD_cons_succ]
    have := sum_set_nat l i a (by rw [List.length_cons] at h; omega)
    omega

theorem totalAdj_setV (s : Store) (h : ℕ) (w : Vertex) (hlt : h < s.length) :
    totalAdj (setV s h w) + (getV s h).adjacent.length
      = totalAdj s + w.adjacent.length := by
  have hmap : (s.map (fun v => v.adjacent.length)).getD h 0
      = (getV s h).adjacent.length := by
    rw [List.getD_eq_getElem?_getD, List.getElem?_map, getV,
      List.getD_eq_getElem?_getD, List.getElem?_eq_getElem hlt]
    rfl
  rw [totalAdj, totalAdj, setV, List.map_set, ← hmap]
  exact sum_set_nat _ h _ (by rw [List.length_map]; exact hlt)

theorem totalAdj_adjDel_le (s : Store) (a b : ℕ) :
    totalAdj (adjDel s a b) ≤ totalAdj s := by
  by_cases ha : a < s.length
  · have hts := totalAdj_setV s a ⟨(getV s a).name, (getV s a).position,
      (getV s a).adjacent.erase b, (getV s a).visited⟩ ha
    dsimp only at hts
    have he : ((getV s a).adjacent.erase b).length
        ≤ (getV s a).adjacent.length := List.length_erase_le _ _
    rw [adjDel]
    omega
  · rw [adjDel, setV, List.set_eq_of_length_le (le_of_not_lt ha)]

theorem totalAdj_adjDel_lt (s : Store) (a b : ℕ) (ha : a < s.length)
    (hb : b ∈ (getV s a).adjacent) :
    totalAdj (adjDel s a b) < totalAdj s := by
  have hts := totalAdj_setV s a ⟨(getV s a).name, (getV s a).position,
    (getV s a).adjacent.erase b, (getV s a).visited⟩ ha
  dsimp only at hts
  have he : ((getV s a).adjacent.erase b).length
      = (getV s a).adjacent.length - 1 := List.length_erase_of_mem hb
  have hp : 0 < (getV s a).adjacent.length := List.length_pos_of_mem hb
  rw [adjDel]
  omega

theorem stripWalk_totalAdj_lt (s : Store) (v : ℕ) (hdeg : deg s v = 1) :
    totalAdj (adjDel (adjDel s ((getV s v).adjacent.headD 0) v) v
      ((getV s v).adjacent.headD 0)) < totalAdj s := by
  have hv : v < s.length := lt_length_of_deg_pos s v (by omega)
  have hdeg' : (getV s v).adjacent.length = 1 := hdeg
  obtain ⟨a, ha⟩ := List.length_eq_one.mp hdeg'
  have hh : (getV s v).adjacent.headD 0 = a := by rw [ha]; rfl
  rw [hh]
  by_cases hav : a = v
  · subst hav
    have h2 : totalAdj (adjDel s a a) < totalAdj s :=
      totalAdj_adjDel_lt s a a hv (by rw [ha]; exact List.mem_singleton_self a)
    have h1 : totalAdj (adjDel (adjDel s a a) a a) ≤ totalAdj (adjDel s a a) :=
      totalAdj_adjDel_le _ _ _
    omega
  · have h1 : totalAdj (adjDel s a v) ≤ totalAdj s := totalAdj_adjDel_le s a v
    have h2 : totalAdj (adjDel (adjDel s a v) v a)
        < totalAdj (adjDel s a v) := by
      refine totalAdj_adjDel_lt _ v a ?_ ?_
      · rw [length_adjDel]; exact hv
      · rw [getV_adjDel_ne s a v v hav, ha]
        exact List.mem_singleton_self a
    omega

theorem getV_adjDel_self (s : Store) (a b : ℕ) (ha : a < s.length) :
    getV (adjDel s a b) a = ⟨(getV s a).name, (getV s a).position,
      (getV s a).adjacent.erase b, (getV s a).visited⟩ :=
  getV_setV_self _ _ _ ha

theorem stripStep_deg_self (s : Store) (v : ℕ) (hdeg : deg s v = 1) :
    deg (adjDel (adjDel s ((getV s v).adjacent.headD 0) v) v
      ((getV s v).adjacent.headD 0)) v = 0 := by
  have hv : v < s.length := lt_length_of_deg_pos s v (by omega)
  have hdeg' : (getV s v).adjacent.length = 1 := hdeg
  obtain ⟨a, ha⟩ := List.length_eq_one.mp hdeg'
  have hh : (getV s v).adjacent.headD 0 = a := by rw [ha]; rfl
  rw [hh]
  by_cases hav : a = v
  · subst hav
    have hlen2 : a < (adjDel s a a).length := by rw [length_adjDel]; exact hv
    rw [deg, getV_adjDel_self (adjDel s a a) a a hlen2,
      getV_adjDel_self s a a hv, ha, List.erase_cons_head]
    rfl
  · have hlen2 : v < (adjDel s a v).length := by rw [length_adjDel]; exact hv
    rw [deg, getV_adjDel_self (adjDel s a v) v a hlen2,
      getV_adjDel_ne s a v v hav, ha, List.erase_cons_head]
    rfl

theorem stripStep_deg_other (s : Store) (v w : ℕ) (hwv : w ≠ v)
    (hwa : w ≠ (getV s v).adjacent.headD 0) :
    deg (adjDel (adjDel s ((getV s v).adjacent.headD 0) v) v
      ((getV s v).adjacent.headD 0)) w = deg s w := by
  rw [deg, deg, getV_adjDel_ne _ _ _ _ (Ne.symm hwv),
    getV_adjDel_ne _ _ _ _ (Ne.symm hwa)]

theorem stripWalk_deg_one :
    ∀ (fuel : ℕ) (s : Store) (v : ℕ), totalAdj s < fuel →
      ∀ w, deg (stripWalk fuel none s v).1 w = 1 → deg s w = 1 ∧ w ≠ v
  | 0, s, _, hf, _, _ => absurd hf (by omega)
  | fuel + 1, s, v, hf, w, hw => by
    simp only [stripWalk] at hw
    split at hw
    · rename_i hcond
      have hstep := stripWalk_totalAdj_lt s v hcond.2
      have hrec := stripWalk_deg_one fuel
        (adjDel (adjDel s ((getV s v).adjacent.headD 0) v) v
          ((getV s v).adjacent.headD 0))
        ((getV s v).adjacent.headD 0) (by omega) w hw
      obtain ⟨h1, h2⟩ := hrec
      have hv0 := stripStep_deg_self s v hcond.2
      have hwv : w ≠ v := by rintro rfl; omega
      refine ⟨?_, hwv⟩
      rw [← stripStep_deg_other s v w hwv h2]
      exact h1
    · rename_i hcond
      refine ⟨hw, ?_⟩
      rintro rfl
      exact hcond ⟨by simp, hw⟩

theorem rfStrip_fold_deg_one :
    ∀ (endpoints : List ℕ) (s : Store) (w : ℕ),
      deg (endpoints.foldl rfStrip s) w = 1 → deg s w = 1 ∧ w ∉ endpoints
  | [], _, _, hw => ⟨hw, by simp⟩
  | e :: l, s, w, hw => by
    rw [List.foldl_cons] at hw
    obtain ⟨h1, h2⟩ := rfStrip_fold_deg_one l (rfStrip s e) w hw
    rw [rfStrip] at h1
    by_cases he : deg s e = 1
    · rw [if_pos he] at h1
      have hsw := stripWalk_deg_one (totalAdj s + 1) s e (Nat.lt_succ_self _)
        w h1
      refine ⟨hsw.1, ?_⟩
      intro hmem
      rcases List.mem_cons.mp hmem with rfl | hmem
      · exact hsw.2 rfl
      · exact h2 hmem
    · rw [if_neg he] at h1
      refine ⟨h1, ?_⟩
      intro hmem
      rcases List.mem_cons.mp hmem with rfl | hmem
      · exact he h1
      · exact h2 hmem

theorem removeFilaments_unfold (s : Store) (comp : List ℕ) :
    removeFilaments s comp =
      if (rfEndpoints s comp).length > 0 then
        ((rfEndpoints s comp).foldl rfStrip s,
         comp.filter (fun v => decide
           (0 < deg ((rfEndpoints s comp).foldl rfStrip s) v)))
      else (s, comp) := rfl

theorem removeFilaments_deg_ge_two (s : Store) (comp : List ℕ)
    (h1 : ∀ v ∈ comp, 1 ≤ deg s v) :
    ∀ w ∈ (removeFilaments s comp).2, 2 ≤ deg (removeFilaments s comp).1 w := by
  intro w hw
  rw [removeFilaments_unfold] at hw ⊢
  by_cases hep : (rfEndpoints s comp).length > 0
  · rw [if_pos hep] at hw ⊢
    dsimp only at hw ⊢
    obtain ⟨hwc, hwd⟩ := List.mem_filter.mp hw
    have hwd' : 0 < deg ((rfEndpoints s comp).foldl rfStrip s) w :=
      of_decide_eq_true hwd
    have hne : deg ((rfEndpoints s comp).foldl rfStrip s) w ≠ 1 := by
      intro hone
      obtain ⟨hds, hnm⟩ := rfStrip_fold_deg_one (rfEndpoints s comp) s w hone
      exact hnm (List.mem_filter.mpr ⟨hwc, decide_eq_true hds⟩)
    omega
  · rw [if_neg hep] at hw ⊢
    dsimp only at hw ⊢
    have hge := h1 w hw
    have hne : deg s w ≠ 1 := by
      intro hone
      have hmem : w ∈ rfEndpoints s comp :=
        List.mem_filter.mpr ⟨hw, decide_eq_true hone⟩
      exact hep (List.length_pos_of_mem hmem)
    omega

theorem adjacent_adjDel_sub (s : Store) (a b x : ℕ) :
    ∀ y, y ∈ (getV (adjDel s a b) x).adjacent → y ∈ (getV s x).adjacent := by
  intro y hy
  by_cases hax : a = x
  · subst hax
    by_cases ha : a < s.length
    · rw [getV_adjDel_self s a b ha] at hy
      exact List.mem_of_mem_erase hy
    · rw [adjDel, setV, List.set_eq_of_length_le (le_of_not_lt ha)] at hy
      exact hy
  · rw [getV_adjDel_ne s a b x hax] at hy
    exact hy

theorem adjDel_nodup (s : Store) (a b : ℕ) (hnd : AdjNodup s) :
    AdjNodup (adjDel s a b) := by
  intro x hx
  rw [length_adjDel] at hx
  by_cases hax : a = x
  · subst hax
    rw [getV_adjDel_self s a b hx]
    exact (hnd a hx).erase b
  · rw [getV_adjDel_ne s a b x hax]
    exact hnd x hx

theorem stripStep_symm (s : Store) (v a : ℕ) (hsym : SymmAdj s)
    (hnd : AdjNodup s) : SymmAdj (adjDel (adjDel s a v) v a) := by
  intro x hx y hy
  rw [length_adjDel, length_adjDel] at hx
  have hy0 : y ∈ (getV s x).adjacent :=
    adjacent_adjDel_sub s a v x y (adjacent_adjDel_sub (adjDel s a v) v a x y hy)
  obtain ⟨hylt, hxy⟩ := hsym x hx y hy0
  refine ⟨by rw [length_adjDel, length_adjDel]; exact hylt, ?_⟩
  by_cases hxyeq : x = y
  · subst hxyeq
    exact hy
  by_cases hyv : y = v
  · subst hyv
    by_cases hav : a = y
    · subst hav
      rw [getV_adjDel_self (adjDel s a a) a a
          (by rw [length_adjDel]; exact hylt),
        getV_adjDel_self s a a hylt]
      exact (List.mem_erase_of_ne hxyeq).mpr
        ((List.mem_erase_of_ne hxyeq).mpr hxy)
    · rw [getV_adjDel_self (adjDel s a y) y a
          (by rw [length_adjDel]; exact hylt),
        getV_adjDel_ne s a y y hav]
      by_cases hxa : x = a
      · exfalso
        subst hxa
        rw [getV_adjDel_ne (adjDel s x y) y x x
            (fun h => hxyeq h.symm), getV_adjDel_self s x y hx] at hy
        exact ((hnd x hx).mem_erase_iff.mp hy).1 rfl
      · exact (List.mem_erase_of_ne hxa).mpr hxy
  by_cases hya : y = a
  · subst hya
    rw [getV_adjDel_ne (adjDel s y v) v y y (fun h => hyv h.symm),
      getV_adjDel_self s y v hylt]
    by_cases hxv : x = v
    · exfalso
      subst hxv
      rw [getV_adjDel_self (adjDel s y x) x y
          (by rw [length_adjDel]; exact hx),
        getV_adjDel_ne s y x x hyv] at hy
      exact ((hnd x hx).mem_erase_iff.mp hy).1 rfl
    · exact (List.mem_erase_of_ne hxv).mpr hxy
  · rw [getV_adjDel_ne (adjDel s a v) v a y (fun h => hyv h.symm),
      getV_adjDel_ne s a v y (fun h => hya h.symm)]
    exact hxy

theorem stripStep_inv (s0 s : Store) (v a : ℕ) (hinv : StripInv s0 s) :
    StripInv s0 (adjDel (adjDel s a v) v a) := by
  obtain ⟨hsym, hnd, hlen, hsub⟩ := hinv
  refine ⟨stripStep_symm s v a hsym hnd,
    adjDel_nodup _ _ _ (adjDel_nodup _ _ _ hnd), ?_, ?_⟩
  · rw [length_adjDel, length_adjDel]
    exact hlen
  · intro x y hy
    exact hsub x y (adjacent_adjDel_sub s a v x y
      (adjacent_adjDel_sub (adjDel s a v) v a x y hy))

theorem stripWalk_inv :
    ∀ (fuel : ℕ) (stop : Option ℕ) (s0 s : Store) (v : ℕ), StripInv s0 s →
      StripInv s0 (stripWalk fuel stop s v).1
  | 0, _, _, _, _, hinv => hinv
  | fuel + 1, stop, s0, s, v, hinv => by
    simp only [stripWalk]
    split
    · exact stripWalk_inv fuel stop s0 _ _ (stripStep_inv s0 s v _ hinv)
    · exact hinv

theorem rfStrip_inv (s0 t : Store) (v : ℕ) (ht : StripInv s0 t) :
    StripInv s0 (rfStrip t v) := by
  rw [rfStrip]
  split
  · exact stripWalk_inv (totalAdj t + 1) none s0 t v ht
  · exact ht

theorem stripInv_refl (s : Store) (hsym : SymmAdj s) (hnd : AdjNodup s) :
    StripInv s s := ⟨hsym, hnd, rfl, fun _ _ h => h⟩

theorem removeFilaments_inv (s : Store) (comp : List ℕ) (hsym : SymmAdj s)
    (hnd : AdjNodup s) : StripInv s (removeFilaments s comp).1 := by
  rw [removeFilaments_unfold]
  split
  · exact @foldl_preserves Store ℕ (StripInv s) rfStrip
      (fun t v ht => rfStrip_inv s t v ht) (rfEndpoints s comp) s
      (stripInv_refl s hsym hnd)
  · exact stripInv_refl s hsym hnd

theorem removeFilaments_closed (s : Store) (comp : List ℕ) (hsym : SymmAdj s)
    (hnd : AdjNodup s) (hcl : CompClosed s comp) :
    CompClosed (removeFilaments s comp).1 (removeFilaments s comp).2 := by
  have hinv := removeFilaments_inv s comp hsym hnd
  rcases hrf : removeFilaments s comp with ⟨s1, c1⟩
  rw [hrf] at hinv
  dsimp only at hinv ⊢
  obtain ⟨hsym1, hnd1, hlen1, hsub1⟩ := hinv
  intro v hv w hw
  rw [removeFilaments_unfold] at hrf
  split at hrf
  · rename_i hep
    injection hrf with hs1 hc1
    subst hs1
    subst hc1
    obtain ⟨hvc, hvd⟩ := List.mem_filter.mp hv
    refine List.mem_filter.mpr ⟨?_, ?_⟩
    · exact hcl v hvc w (hsub1 v w hw)
    · have hvlt : v < ((rfEndpoints s comp).foldl rfStrip s).length :=
        lt_length_of_deg_pos _ v (of_decide_eq_true hvd)
      obtain ⟨hwlt, hvw⟩ := hsym1 v hvlt w hw
      have hpos : 0 < deg ((rfEndpoints s comp).foldl rfStrip s) w := by
        rw [deg]
        exact List.length_pos_of_mem hvw
      exact decide_eq_true hpos
  · injection hrf with hs1 hc1
    subst hs1
    subst hc1
    exact hcl v hv w hw

theorem path_length_le (s : Store) (comp : List ℕ)
    (hdeg : ∀ w ∈ comp, 2 ≤ deg s w) :
    ∀ l, IsPath s comp l → l.length ≤ s.length := by
  intro l hl
  obtain ⟨-, -, hnodup, hmem⟩ := hl
  have hlt : ∀ x ∈ l, x < s.length := fun x hx =>
    lt_length_of_deg_pos s x (by have := hdeg x (hmem x hx); omega)
  calc l.length = l.toFinset.card := (List.toFinset_card_of_nodup hnodup).symm
    _ ≤ (Finset.range s.length).card := Finset.card_le_card (by
        intro x hx
        rw [Finset.mem_range]
        exact hlt x (List.mem_toFinset.mp hx))
    _ = s.length := Finset.card_range _

theorem exists_cycle_of_min_degree_two (s : Store) (comp : List ℕ)
    (hne : comp ≠ []) (hdeg : ∀ w ∈ comp, 2 ≤ deg s w) (hsym : SymmAdj s)
    (hnd : AdjNodup s) (hcl : CompClosed s comp) : HasCycle s comp := by
  classical
  by_cases hself : ∃ v ∈ comp, v ∈ (getV s v).adjacent
  · exact Or.inl hself
  push_neg at hself
  obtain ⟨v0, hv0⟩ := List.exists_mem_of_ne_nil comp hne
  have hP0 : IsPath s comp [v0] := ⟨by simp, List.chain'_singleton v0,
    List.nodup_singleton v0, fun x hx => by
      rw [List.mem_singleton] at hx
      rw [hx]
      exact hv0⟩
  have hSne : Set.Nonempty {n | ∃ l, IsPath s comp l ∧ l.length = n} :=
    ⟨1, [v0], hP0, rfl⟩
  have hSbdd : BddAbove {n | ∃ l, IsPath s comp l ∧ l.length = n} :=
    ⟨s.length, by
      rintro n ⟨l, hl, rfl⟩
      exact path_length_le s comp hdeg l hl⟩
  obtain ⟨l, hPl, hlenS⟩ := Nat.sSup_mem hSne hSbdd
  have hmax : ∀ l', IsPath s comp l' → l'.length ≤ l.length := by
    intro l' hl'
    rw [hlenS]
    exact le_csSup hSbdd ⟨l', hl', rfl⟩
  obtain ⟨v, rest, rfl⟩ : ∃ v rest, l = v :: rest := by
    cases l with
    | nil => exact absurd rfl hPl.1
    | cons v rest => exact ⟨v, rest, rfl⟩
  obtain ⟨-, hch, hnodup, hmemL⟩ := hPl
  have hvcomp : v ∈ comp := hmemL v (List.mem_cons_self v rest)
  have hvlt : v < s.length := lt_length_of_deg_pos s v (by
    have := hdeg v hvcomp
    omega)
  have hext : ∀ u, u ∈ (getV s v).adjacent → u ∈ v :: rest := by
    intro u hu
    by_contra hnl
    obtain ⟨hult, hvu⟩ := hsym v hvlt u hu
    have hP' : IsPath s comp (u :: v :: rest) :=
      ⟨by simp, List.chain'_cons.mpr ⟨hvu, hch⟩,
       List.nodup_cons.mpr ⟨hnl, hnodup⟩, fun x hx => by
         rcases List.mem_cons.mp hx with rfl | hx
         · exact hcl v hvcomp x hu
         · exact hmemL x hx⟩
    have hle := hmax (u :: v :: rest) hP'
    simp only [List.length_cons] at hle
    omega
  have hdv : 2 ≤ (getV s v).adjacent.length := hdeg v hvcomp
  obtain ⟨a, b, tl, hadj⟩ : ∃ a b tl, (getV s v).adjacent = a :: b :: tl := by
    cases hadjl : (getV s v).adjacent with
    | nil =>
      rw [hadjl] at hdv
      exact absurd hdv (by decide)
    | cons a r =>
      cases r with
      | nil =>
        rw [hadjl] at hdv
        simp at hdv
      | cons b tl => exact ⟨a, b, tl, rfl⟩
  have hab : a ≠ b := by
    have hthis := hnd v hvlt
    rw [hadj] at hthis
    intro heq
    subst heq
    exact (List.nodup_cons.mp hthis).1 (List.mem_cons_self a tl)
  have haadj : a ∈ (getV s v).adjacent := by
    rw [hadj]
    exact List.mem_cons_self a _
  have hbadj : b ∈ (getV s v).adjacent := by
    rw [hadj]
    exact List.mem_cons_of_mem a (List.mem_cons_self b tl)
  have hav : a ≠ v := by
    intro heq
    rw [heq] at haadj
    exact hself v hvcomp haadj
  have hbv : b ≠ v := by
    intro heq
    rw [heq] at hbadj
    exact hself v hvcomp hbadj
  have hamem : a ∈ v :: rest := hext a haadj
  obtain ⟨w, rest2, rfl⟩ : ∃ w rest2, rest = w :: rest2 := by
    cases rest with
    | nil =>
      rcases List.mem_cons.mp hamem with heq | h
      · exact absurd heq hav
      · exact absurd h (List.not_mem_nil a)
    | cons w r2 => exact ⟨w, r2, rfl⟩
  have hpick : ∃ u, u ∈ (getV s v).adjacent ∧ u ≠ w ∧ u ≠ v := by
    by_cases haw : a = w
    · exact ⟨b, hbadj, fun h => hab (haw.trans h.symm), hbv⟩
    · exact ⟨a, haadj, haw, hav⟩
  obtain ⟨u, hu_adj, huw, huv⟩ := hpick
  have hu_mem : u ∈ v :: w :: rest2 := hext u hu_adj
  have hu_rest2 : u ∈ rest2 := by
    rcases List.mem_cons.mp hu_mem with h | h
    · exact absurd h huv
    · rcases List.mem_cons.mp h with h' | h'
      · exact absurd h' huw
      · exact h'
  obtain ⟨p, q, hpq⟩ := List.append_of_mem hu_rest2
  subst hpq
  have hvu' : v ∈ (getV s u).adjacent := (hsym v hvlt u hu_adj).2
  have hAeq : v :: w :: (p ++ [u]) = (v :: w :: p) ++ [u] := by simp
  have hAlast : (v :: w :: (p ++ [u])).getLast? = some u := by
    rw [hAeq]
    exact List.getLast?_concat _
  have hpre : (v :: w :: (p ++ [u])) <+: (v :: w :: (p ++ u :: q)) :=
    ⟨q, by simp⟩
  have hchA : List.Chain' (fun c d => d ∈ (getV s c).adjacent)
      (v :: w :: (p ++ [u])) := hch.prefix hpre
  have hchC : List.Chain' (fun c d => d ∈ (getV s c).adjacent)
      ((v :: w :: (p ++ [u])) ++ [v]) := by
    rw [List.chain'_append]
    refine ⟨hchA, List.chain'_singleton v, ?_⟩
    intro x hx y hy
    rw [hAlast, Option.mem_def, Option.some.injEq] at hx
    rw [List.head?_cons, Option.mem_def, Option.some.injEq] at hy
    subst hx
    subst hy
    exact hvu'
  have hsubA : List.Sublist (v :: w :: (p ++ [u])) (v :: w :: (p ++ u :: q)) := by
    refine List.Sublist.cons₂ v (List.Sublist.cons₂ w ?_)
    refine (List.append_sublist_append_left p).mpr ?_
    exact List.Sublist.cons₂ u (List.nil_sublist q)
  have hndC : ((v :: w :: (p ++ [u])) ++ [v]).dropLast.Nodup := by
    rw [List.dropLast_concat]
    exact hsubA.nodup hnodup
  have hlenC : 4 ≤ ((v :: w :: (p ++ [u])) ++ [v]).length := by
    simp only [List.length_append, List.length_cons, List.length_nil]
    omega
  have hhl : ((v :: w :: (p ++ [u])) ++ [v]).head?
      = ((v :: w :: (p ++ [u])) ++ [v]).getLast? := by
    rw [List.getLast?_concat]
    rfl
  refine Or.inr ⟨(v :: w :: (p ++ [u])) ++ [v], ⟨hlenC, hhl, hchC, hndC⟩, ?_⟩
  intro x hx
  rcases List.mem_append.mp hx with hx | hx
  · exact hmemL x (hsubA.subset hx)
  · rw [List.mem_singleton] at hx
    rw [hx]
    exact hvcomp

/-- C4: the claim's unconditional postcondition is false (see the
counterexample), but it holds for every well-formed component: if every
vertex of the component has degree at least 1, adjacency is symmetric and
duplicate-free, and the component is closed under adjacency — all true of
the components `discover` builds — then after `removeFilaments` the
component is either empty or every remaining vertex has degree at least 2
and the pruned component contains a cycle. -/
theorem removeFilaments_postcondition (s : Store) (comp : List ℕ)
    (hdeg : ∀ v ∈ comp, 1 ≤ deg s v) (hsym : SymmAdj s) (hnd : AdjNodup s)
    (hcl : CompClosed s comp) :
    (removeFilaments s comp).2 = [] ∨
      ((∀ w ∈ (removeFilaments s comp).2,
          2 ≤ deg (removeFilaments s comp).1 w) ∧
        HasCycle (removeFilaments s comp).1 (removeFilaments s comp).2) := by
  by_cases hcnil : (removeFilaments s comp).2 = []
  · exact Or.inl hcnil
  · refine Or.inr ⟨removeFilaments_deg_ge_two s comp hdeg, ?_⟩
    obtain ⟨hsym1, hnd1, -, -⟩ := removeFilaments_inv s comp hsym hnd
    exact exists_cycle_of_min_degree_two _ _ hcnil
      (removeFilaments_deg_ge_two s comp hdeg) hsym1 hnd1
      (removeFilaments_closed s comp hsym hnd hcl)

set_option maxHeartbeats 8000000
set_option maxRecDepth 20000

/-- C6 witness: the two-triangle input produces a tree satisfying the
invariant at every CHILD. -/
theorem getAreaTree_withoutChildren_invariant_witness :
    ∃ t, getAreaTree [((0 : ℚ), (0 : ℚ)), (2, 0), (1, 2), (3, 2)]
        [((0 : ℤ), (1 : ℤ)), (1, 2), (2, 0), (1, 3), (3, 2)] 100
      = .ok t ∧ atreeWcInv t = true := by
  refine ⟨ATree.root [ATChild.mk 0 2 0 [0, 1, 2, 0]
    [ATChild.mk 1 2 2 [2, 1, 3, 2] []]], ?h, ?_⟩
  case h => with_unfolding_all rfl
  case _ =>
    refine getAreaTree_withoutChildren_invariant
      [((0 : ℚ), (0 : ℚ)), (2, 0), (1, 2), (3, 2)]
      [((0 : ℤ), (1 : ℤ)), (1, 2), (2, 0), (1, 3), (3, 2)] 100 _ ?_
    with_unfolding_all rfl

/-- C9: `getAreaTree` always returns the ROOT aggregator it seeded the
traversal with; a top-level CHILD is never produced. -/
theorem getAreaTree_returns_root (nodes : List Pt) (edges : List InputEdge)
    (fuel : ℕ) (t : ATree) (h : getAreaTree nodes edges fuel = .ok t) :
    t.isRoot = true := by
  rw [getAreaTree] at h
  cases hd : discover [] nodes edges fuel with
  | error e => rw [hd] at h; exact absurd h (by simp)
  | ok pr =>
    rw [hd] at h
    cases pr with
    | mk outcome store =>
      cases outcome with
      | error reason => exact absurd h (by simp)
      | result forest =>
        simp only [Except.ok.injEq] at h
        rw [← h, buildNestingTree]
        rw [(traverseAreas_shape nodes _ _ _ _).1]
        rfl

/-- C9 witness: the two-triangle input yields a ROOT node. -/
theorem getAreaTree_returns_root_witness :
    ∃ t, getAreaTree [((0 : ℚ), (0 : ℚ)), (2, 0), (1, 2), (3, 2)]
        [((0 : ℤ), (1 : ℤ)), (1, 2), (2, 0), (1, 3), (3, 2)] 100
      = .ok t ∧ t.isRoot = true := by
  refine ⟨ATree.root [ATChild.mk 0 2 0 [0, 1, 2, 0]
    [ATChild.mk 1 2 2 [2, 1, 3, 2] []]], ?h, ?_⟩
  case h => with_unfolding_all rfl
  case _ =>
    refine getAreaTree_returns_root
      [((0 : ℚ), (0 : ℚ)), (2, 0), (1, 2), (3, 2)]
      [((0 : ℤ), (1 : ℤ)), (1, 2), (2, 0), (1, 3), (3, 2)] 100 _ ?_
    with_unfolding_all rfl

/-- C2 witness: a successful run on the two-triangle graph, with both
returned cycles closed. -/
theorem discover_cycles_closed_witness :
    ∃ forest s', discover [] [((0 : ℚ), (0 : ℚ)), (2, 0), (1, 2), (3, 2)]
        [((0 : ℤ), (1 : ℤ)), (1, 2), (2, 0), (1, 3), (3, 2)] 100
      = .ok (.result forest, s') ∧ forestClosed forest = true := by
  have h : discover [] [((0 : ℚ), (0 : ℚ)), (2, 0), (1, 2), (3, 2)]
      [((0 : ℤ), (1 : ℤ)), (1, 2), (2, 0), (1, 3), (3, 2)] 100
      = .ok (.result [.mk [] [.mk [0, 1, 2, 0] [], .mk [2, 1, 3, 2] []]],
        [⟨0, (0, 0), [], 0⟩, ⟨1, (2, 0), [], 0⟩, ⟨2, (1, 2), [], 0⟩,
         ⟨3, (3, 2), [], 0⟩]) := by
    with_unfolding_all rfl
  exact ⟨_, _, h, discover_cycles_closed _ _ _ _ _ _ h⟩

/-- C10 counterexample: a first `discover` call on the square with both
diagonals completes, leaving every stale record with an empty adjacency
set — but with visited mark `2`, because the wedge-detachment DFS marks
are never reset.  A second call on the same instance therefore skips
every stale record and returns normally, refuting "a second discover
call ... does not return normally". -/
theorem discover_not_single_use :
    discover [] sqPositions sqEdges 100
      = .ok (.result [sqTree], sqStoreFinal) ∧
    (∀ v ∈ sqStoreFinal, v.adjacent = [] ∧ v.visited = 2) ∧
    discover sqStoreFinal [((0 : ℚ), (0 : ℚ)), (1, 0)] [((0 : ℤ), (1 : ℤ))] 100
      = .ok (.result [], sqSecondStore) := by
  refine ⟨?_, by decide, by with_unfolding_all rfl⟩
  have L1 : validateInputs sqPositions sqEdges = none := by
    with_unfolding_all rfl
  have L2 : addEdges sqEdges (buildVertices sqPositions sqEdges []).2
      (buildVertices sqPositions sqEdges []).1 = sqStore := by
    with_unfolding_all rfl
  have L3 : componentsLoop 100 (List.range sqStore.length) sqStore []
      = .ok (sqStoreMarked, [[3, 2, 1, 0]]) := by
    with_unfolding_all rfl
  have L4 : sqStoreMarked.map (fun v => { v with visited := 0 }) = sqStore := by
    with_unfolding_all rfl
  have L5 : forestLoop 100 [[3, 2, 1, 0]] sqStore []
      = .ok ([sqTree], sqStoreFinal) := by
    with_unfolding_all rfl
  rw [discover, L1]
  dsimp only
  rw [L2, L3]
  dsimp only
  rw [L4, L5]
  with_unfolding_all rfl

/-- C10 amended-theorem witness: a store of empty-adjacency stale records
whose second (non-head) record is still unvisited makes the next
(validation-passing) call crash. -/
theorem discover_stale_unvisited_never_ok_witness :
    (∀ v ∈ ([⟨7, ((9 : ℚ), (9 : ℚ)), [], 2⟩,
             ⟨9, ((5 : ℚ), (5 : ℚ)), [], 0⟩] : Store), v.adjacent = []) ∧
    (1 < ([⟨7, ((9 : ℚ), (9 : ℚ)), [], 2⟩,
           ⟨9, ((5 : ℚ), (5 : ℚ)), [], 0⟩] : Store).length ∧
      (getV [⟨7, ((9 : ℚ), (9 : ℚ)), [], 2⟩,
             ⟨9, ((5 : ℚ), (5 : ℚ)), [], 0⟩] 1).visited = 0) ∧
    validateInputs [((0 : ℚ), (0 : ℚ)), (2, 0), (1, 2), (3, 2)]
        [((0 : ℤ), (1 : ℤ)), (1, 2), (2, 0), (1, 3), (3, 2)] = none ∧
    discover [⟨7, ((9 : ℚ), (9 : ℚ)), [], 2⟩, ⟨9, ((5 : ℚ), (5 : ℚ)), [], 0⟩]
        [((0 : ℚ), (0 : ℚ)), (2, 0), (1, 2), (3, 2)]
        [((0 : ℤ), (1 : ℤ)), (1, 2), (2, 0), (1, 3), (3, 2)] 100
      ≠ .ok (.result [], []) :=
  ⟨by decide, ⟨by decide, rfl⟩, by with_unfolding_all rfl,
    discover_stale_unvisited_never_ok _ _ _ 100 _ (by decide)
      ⟨1, by decide, rfl⟩ (by with_unfolding_all rfl)⟩

/-- C7 witness: both orientations of edge `{0,1}` pass validation. -/
theorem validator_reversed_edges_not_duplicate_witness :
    (((0 : ℤ), (1 : ℤ)) ∈ [((0 : ℤ), (1 : ℤ)), ((1 : ℤ), (0 : ℤ))] ∧
     ((1 : ℤ), (0 : ℤ)) ∈ [((0 : ℤ), (1 : ℤ)), ((1 : ℤ), (0 : ℤ))] ∧
     ([((0 : ℤ), (1 : ℤ)), ((1 : ℤ), (0 : ℤ))] : List InputEdge).Nodup) ∧
    validateInputs [((0 : ℚ), (0 : ℚ)), ((1 : ℚ), (0 : ℚ))]
        [((0 : ℤ), (1 : ℤ)), ((1 : ℤ), (0 : ℤ))]
      ≠ some DiscoveryErrorCode.DUPLICATE_EDGE_FOUND :=
  ⟨⟨by decide, by decide, by decide⟩,
    validator_reversed_edges_not_duplicate _ _ 0 1 (by decide) (by decide)
      (by decide)⟩

/-- C4 counterexample: a component consisting of one isolated (degree-0)
vertex passes through `removeFilaments` untouched — there are no degree-1
endpoints, so nothing is stripped and nothing is filtered — leaving a
non-empty component whose vertex has degree 0, not ≥ 2 (and, holding no
edge, certainly no cycle). -/
theorem removeFilaments_counterexample :
    (removeFilaments [⟨0, (0, 0), [], 0⟩] [0]).2 ≠ [] ∧
    ¬ ∀ w ∈ (removeFilaments [⟨0, (0, 0), [], 0⟩] [0]).2,
        2 ≤ deg (removeFilaments [⟨0, (0, 0), [], 0⟩] [0]).1 w := by
  constructor
  · with_unfolding_all decide
  · intro h
    have h0 := h 0 (by with_unfolding_all decide)
    rw [show deg (removeFilaments [⟨0, (0, 0), [], 0⟩] [0]).1 0 = 0 from by
      with_unfolding_all rfl] at h0
    exact absurd h0 (by decide)

/-- C4 amended-theorem witness: a triangle component satisfies the
hypotheses, and the postcondition holds for it. -/
theorem removeFilaments_postcondition_witness :
    (∀ v ∈ ([0, 1, 2] : List ℕ), 1 ≤ deg triStore v) ∧ SymmAdj triStore ∧
    AdjNodup triStore ∧ CompClosed triStore [0, 1, 2] ∧
    ((removeFilaments triStore [0, 1, 2]).2 = [] ∨
      ((∀ w ∈ (removeFilaments triStore [0, 1, 2]).2,
          2 ≤ deg (removeFilaments triStore [0, 1, 2]).1 w) ∧
        HasCycle (removeFilaments triStore [0, 1, 2]).1
          (removeFilaments triStore [0, 1, 2]).2)) :=
  ⟨by decide, by decide, by decide, by decide,
    removeFilaments_postcondition triStore [0, 1, 2] (by decide) (by decide)
      (by decide) (by decide)⟩

end Planar
